import Mathlib

/-!
Verification development for the AntimonyEditor repository.

The development shallowly embeds the parts of the program that the checked
properties are about:

* the Monarch tokenizer table for the Antimony language
  (`src/language-handler/antimony-language.ts`, given as `src/unnamed/part_001`),
  together with the Monarch matching discipline (rules tried in order,
  regexes anchored at the current position of the remaining line, first
  matching rule wins, and an unmatched character is consumed as a single
  default-class token);
* the annotation-recommendation modal
  (`src/components/recommend-annotation/RecommendAnnotationModal.tsx`):
  `handleCutoff` and `checkLowMatch`;
* components of the language-service core whose code is not part of the
  given sources (only their tests and callers are): the notes normalizer
  `processContent`/`normalizeNotes`, the position index
  (`annotationsFor`/`latestAnnotationFor`), the diagnostics `merge`, and
  `applyAnnotations`.  These are modelled from the specification, as marked
  in their doc comments.

Numbers that are IEEE doubles in the program (match scores, the cutoff
value) are modelled as rationals; `parseFloat` returning `NaN` is modelled
as `none`.
-/

namespace AntimonyEditor

/-! ## Recommendation modal: cutoff handling (C9)

From `RecommendAnnotationModal.tsx`:

```
const [cutoff, setCutoff] = useState<number>(0.01);
const handleCutoff = (event) => {
  let value = parseFloat(event.target.value);
  if (value >= 0.0 && value <= 1.0) {
    setCutoff(value);
  }
};
```
-/

/-- The initial cutoff state, `useState<number>(0.01)`. -/
def initialCutoff : ℚ := 1 / 100

/-- One change event of the cutoff input field.  The stored cutoff is
`cutoff`; `value` is the result of `parseFloat` on the input text, with
`NaN` modelled as `none`.  The stored value is replaced only when the
parsed value satisfies `value >= 0.0 && value <= 1.0` (false for `NaN`). -/
def handleCutoff (cutoff : ℚ) (value : Option ℚ) : ℚ :=
  match value with
  | none => cutoff
  | some v => if 0 ≤ v ∧ v ≤ 1 then v else cutoff

/-- The cutoff state after a sequence of change events. -/
def cutoffAfter (events : List (Option ℚ)) : ℚ :=
  events.foldl handleCutoff initialCutoff

theorem cutoffAfter_mem_Icc (c : ℚ) (h0 : 0 ≤ c) (h1 : c ≤ 1)
    (events : List (Option ℚ)) :
    0 ≤ events.foldl handleCutoff c ∧ events.foldl handleCutoff c ≤ 1 := by
  induction events generalizing c with
  | nil => exact ⟨h0, h1⟩
  | cons e es ih =>
    simp only [List.foldl_cons]
    rcases e with _ | v
    · exact ih c h0 h1
    · by_cases hv : 0 ≤ v ∧ v ≤ 1
      · simpa [handleCutoff, hv] using ih v hv.1 hv.2
      · simpa [handleCutoff, hv] using ih c h0 h1

/-- (C9) The cutoff starts at `0.01` and stays inside `[0, 1]` across every
sequence of change events, because a change event whose input parses to a
number outside `[0, 1]`, or to `NaN`, leaves the stored cutoff unchanged. -/
theorem cutoff_invariant :
    initialCutoff = 1 / 100 ∧
    (∀ events : List (Option ℚ),
      0 ≤ cutoffAfter events ∧ cutoffAfter events ≤ 1) ∧
    (∀ c : ℚ, handleCutoff c none = c) ∧
    (∀ c v : ℚ, ¬ (0 ≤ v ∧ v ≤ 1) → handleCutoff c (some v) = c) := by
  refine ⟨rfl, fun events => ?_, fun c => rfl, fun c v hv => ?_⟩
  · exact cutoffAfter_mem_Icc initialCutoff (by norm_num [initialCutoff])
      (by norm_num [initialCutoff]) events
  · simp [handleCutoff, hv]

/-- Witness for `cutoff_invariant` at concrete inputs: a NaN event, an
out-of-range event and an in-range event starting from the initial state. -/
theorem cutoff_invariant_witness :
    (0 ≤ cutoffAfter [none, some 5, some (1 / 2)] ∧
      cutoffAfter [none, some 5, some (1 / 2)] ≤ 1) ∧
    handleCutoff (1 / 100) (some 5) = 1 / 100 := by
  refine ⟨(cutoff_invariant.2.1 [none, some 5, some (1 / 2)]), ?_⟩
  exact cutoff_invariant.2.2.2 (1 / 100) 5 (by norm_num)

/-! ## Recommendation modal: low-match marking (C10)

From `RecommendAnnotationModal.tsx`:

```
const checkLowMatch = (group: Recommendation[]): Recommendation[] => {
  const existingZeros = group.filter((rec) => rec.existing === 0);
  return group.map((rec) => {
    if (rec.existing === 1) {
      const hasLowMatch = existingZeros.some(
        (existingZero) => rec.matchScore < existingZero.matchScore
      );
      return { ...rec, isLowMatch: hasLowMatch };
    }
    return rec;
  });
};
```
-/

/-- The `Recommendation` record of the modal.  The `annotation`,
`annotationLabel` and `updateAnnotation` fields are carried as `annot`,
`annotLabel` and `updateAnnot`; scores are rationals. -/
structure Recommendation where
  type : String
  id : String
  displayName : String
  metaId : String
  annot : String
  annotLabel : String
  matchScore : ℚ
  existing : Int
  updateAnnot : String
  isLowMatch : Bool
  deriving DecidableEq

/-- `checkLowMatch` from the modal, translated clause by clause. -/
def checkLowMatch (group : List Recommendation) : List Recommendation :=
  let existingZeros := group.filter (fun rec => rec.existing == 0)
  group.map (fun rec =>
    if rec.existing = 1 then
      { rec with
        isLowMatch :=
          existingZeros.any (fun z => decide (rec.matchScore < z.matchScore)) }
    else rec)

/-- (C10) Within one group, a recommendation with `existing = 1` is marked
`isLowMatch` exactly when some member of the group with `existing = 0` has a
strictly greater `matchScore`; a recommendation with `existing = 0` is
returned unchanged. -/
theorem checkLowMatch_spec :
    (∀ group : List Recommendation, (checkLowMatch group).length = group.length) ∧
    (∀ (group : List Recommendation) (i : Nat) (h : i < group.length)
        (h2 : i < (checkLowMatch group).length),
      ((group.get ⟨i, h⟩).existing = 1 →
        (((checkLowMatch group).get ⟨i, h2⟩).isLowMatch = true ↔
          ∃ z ∈ group, z.existing = 0 ∧
            (group.get ⟨i, h⟩).matchScore < z.matchScore) ∧
        ((checkLowMatch group).get ⟨i, h2⟩ =
          { group.get ⟨i, h⟩ with
            isLowMatch := ((checkLowMatch group).get ⟨i, h2⟩).isLowMatch })) ∧
      ((group.get ⟨i, h⟩).existing = 0 →
        (checkLowMatch group).get ⟨i, h2⟩ = group.get ⟨i, h⟩)) := by
  constructor
  · intro group; simp [checkLowMatch]
  · intro group i h h2
    set r := group.get ⟨i, h⟩ with hr
    have hget : (checkLowMatch group).get ⟨i, h2⟩ =
        if r.existing = 1 then
          { r with
            isLowMatch :=
              (group.filter (fun rec => rec.existing == 0)).any
                (fun z => decide (r.matchScore < z.matchScore)) }
        else r := by
      simp [checkLowMatch, hr, List.get_map]
    refine ⟨fun hex => ?_, fun hex => ?_⟩
    · rw [hget, if_pos hex]
      constructor
      · simp only [List.any_eq_true, List.mem_filter, beq_iff_eq,
          decide_eq_true_eq]
        constructor
        · rintro ⟨z, ⟨hz, hz0⟩, hlt⟩; exact ⟨z, hz, hz0, hlt⟩
        · rintro ⟨z, hz, hz0, hlt⟩; exact ⟨z, ⟨hz, hz0⟩, hlt⟩
      · rfl
    · have hne : r.existing ≠ 1 := by rw [hex]; decide
      rw [hget, if_neg hne]

/-- Witness for `checkLowMatch_spec` at a concrete two-element group: the
existing annotation (score 0.3) is out-scored by a fresh candidate
(score 0.9), so it is marked as a low match, while the fresh candidate is
returned unchanged. -/
theorem checkLowMatch_spec_witness :
    ((checkLowMatch
        [⟨"species", "A", "A", "m1", "CHEBI:1", "x", 3 / 10, 1, "", false⟩,
         ⟨"species", "A", "A", "m1", "CHEBI:2", "y", 9 / 10, 0, "", false⟩]).get
      ⟨0, by decide⟩).isLowMatch = true ∧
    (checkLowMatch
        [⟨"species", "A", "A", "m1", "CHEBI:1", "x", 3 / 10, 1, "", false⟩,
         ⟨"species", "A", "A", "m1", "CHEBI:2", "y", 9 / 10, 0, "", false⟩]).get
      ⟨1, by decide⟩ =
      ⟨"species", "A", "A", "m1", "CHEBI:2", "y", 9 / 10, 0, "", false⟩ := by
  constructor
  · refine ((checkLowMatch_spec.2
      [⟨"species", "A", "A", "m1", "CHEBI:1", "x", 3 / 10, 1, "", false⟩,
       ⟨"species", "A", "A", "m1", "CHEBI:2", "y", 9 / 10, 0, "", false⟩]
      0 (by decide) (by decide)).1 rfl).1.mpr ?_
    refine ⟨⟨"species", "A", "A", "m1", "CHEBI:2", "y", 9 / 10, 0, "", false⟩,
      List.mem_cons.mpr (Or.inr (List.mem_cons.mpr (Or.inl rfl))), rfl,
      by norm_num⟩
  · exact (checkLowMatch_spec.2
      [⟨"species", "A", "A", "m1", "CHEBI:1", "x", 3 / 10, 1, "", false⟩,
       ⟨"species", "A", "A", "m1", "CHEBI:2", "y", 9 / 10, 0, "", false⟩]
      1 (by decide) (by decide)).2 rfl

/-! ## Position index (C1)

The `language-handler` sources are not part of the given files (only the
editor tests exercising them are), so the position index is modelled from
the specification. -/

/-- The editor's 1-based source position (`SrcPosition` of
`language-handler/Types.ts`, constructed as `new SrcPosition(line, column)`
in the tests). -/
structure SrcPosition where
  line : Nat
  column : Nat
  deriving DecidableEq

/-- A source range, `start <= stop` under the line-major order. -/
structure SrcRange where
  start : SrcPosition
  stop : SrcPosition
  deriving DecidableEq

/-- Modelled from the spec: the missing `language-handler` model code.  An
`AnnotationStatement` is `(subjectName, predicate, resourceURI, range)`;
the semantic model keeps annotation statements as a sequence in document
order. -/
structure AnnotationStatement where
  subjectName : String
  predicate : String
  resourceURI : String
  range : SrcRange
  deriving DecidableEq

/-- Modelled from the spec: `annotationsFor(name)` returns all annotation
statements whose `subjectName` equals `name`, in document order (the input
list is the semantic model's statement sequence in document order). -/
def annotationsFor (name : String) (anns : List AnnotationStatement) :
    List AnnotationStatement :=
  anns.filter (fun a => a.subjectName == name)

/-- Modelled from the spec: `latestAnnotationFor(name)` returns the last
(highest source position) matching annotation statement. -/
def latestAnnotationFor (name : String) (anns : List AnnotationStatement) :
    Option AnnotationStatement :=
  (annotationsFor name anns).getLast?

theorem filter_ne_nil_of_mem {α : Type} (p : α → Bool) {l : List α} {x : α}
    (hx : x ∈ l) (hp : p x = true) : l.filter p ≠ [] := by
  intro hnil
  have : x ∈ l.filter p := List.mem_filter.mpr ⟨hx, hp⟩
  simp [hnil] at this

theorem getLast?_filter_last {α : Type} (p : α → Bool) (l : List α)
    (h : ∃ x ∈ l, p x = true) :
    ∃ (a : α) (i : Nat), (l.filter p).getLast? = some a ∧ p a = true ∧
      l[i]? = some a ∧
      ∀ (j : Nat) (b : α), l[j]? = some b → p b = true → j ≤ i := by
  induction l with
  | nil => simp at h
  | cons x xs ih =>
    by_cases hxs : ∃ y ∈ xs, p y = true
    · obtain ⟨a, i, hlast, hpa, hget, hmax⟩ := ih hxs
      obtain ⟨y, hy, hpy⟩ := hxs
      have hne : xs.filter p ≠ [] := filter_ne_nil_of_mem p hy hpy
      refine ⟨a, i + 1, ?_, hpa, by simpa using hget, ?_⟩
      · by_cases hpx : p x
        · rw [List.filter_cons_of_pos hpx]
          obtain ⟨z, zs, hzs⟩ := List.exists_cons_of_ne_nil hne
          rw [hzs, List.getLast?_cons_cons, ← hzs, hlast]
        · rwa [List.filter_cons_of_neg (by simpa using hpx)]
      · intro j b hj hpb
        match j with
        | 0 => exact Nat.zero_le _
        | j + 1 =>
          have : j ≤ i := hmax j b (by simpa using hj) hpb
          omega
    · obtain ⟨z, hz, hpz⟩ := h
      have hzx : z = x := by
        rcases List.mem_cons.mp hz with h' | h'
        · exact h'
        · exact absurd ⟨z, h', hpz⟩ hxs
      subst hzx
      have hfil : xs.filter p = [] := by
        rw [List.filter_eq_nil_iff]
        intro y hy
        by_contra hpy
        exact hxs ⟨y, hy, by simpa using hpy⟩
      refine ⟨z, 0, ?_, hpz, by simp, ?_⟩
      · rw [List.filter_cons_of_pos hpz, hfil]; rfl
      · intro j b hj hpb
        match j with
        | 0 => exact Nat.le_refl 0
        | j + 1 =>
          have hb : b ∈ xs := List.getElem?_mem (by simpa using hj)
          exact absurd ⟨b, hb, hpb⟩ hxs

/-- (C1) For every symbol name with at least one matching annotation
statement, `latestAnnotationFor(name)` returns a matching statement that
occurs last in document order: it sits at an index `i` of the statement
sequence, and every matching statement sits at an index `≤ i`. -/
theorem latestAnnotationFor_last (name : String)
    (anns : List AnnotationStatement)
    (h : ∃ a ∈ anns, a.subjectName = name) :
    ∃ st i, latestAnnotationFor name anns = some st ∧
      st.subjectName = name ∧ anns[i]? = some st ∧
      ∀ (j : Nat) (b : AnnotationStatement),
        anns[j]? = some b → b.subjectName = name → j ≤ i := by
  have h' : ∃ a ∈ anns, (fun a => a.subjectName == name) a = true := by
    obtain ⟨a, ha, hname⟩ := h
    exact ⟨a, ha, by simpa using hname⟩
  obtain ⟨a, i, hlast, hpa, hget, hmax⟩ :=
    getLast?_filter_last (fun a => a.subjectName == name) anns h'
  refine ⟨a, i, hlast, by simpa using hpa, hget, ?_⟩
  intro j b hj hname
  exact hmax j b hj (by simpa using hname)

/-- The navigation scenario of the editor test
`should navigate to annotation when hovering over one`: `ProteinD` is
annotated on line 19 and line 66. -/
def proteinDLine19 : AnnotationStatement :=
  ⟨"ProteinD", "identity", "http://identifiers.org/uniprot/P0A", ⟨⟨19, 1⟩, ⟨19, 80⟩⟩⟩

/-- The later `ProteinD` annotation statement, on line 66. -/
def proteinDLine66 : AnnotationStatement :=
  ⟨"ProteinD", "identity", "http://identifiers.org/uniprot/P0B", ⟨⟨66, 1⟩, ⟨66, 80⟩⟩⟩

/-- The document-order statement sequence of the scenario. -/
def navigationDemo : List AnnotationStatement :=
  [proteinDLine19,
   ⟨"ProteinC", "identity", "http://identifiers.org/uniprot/P0C", ⟨⟨30, 1⟩, ⟨30, 80⟩⟩⟩,
   proteinDLine66,
   ⟨"ProteinE", "identity", "http://identifiers.org/uniprot/P0E", ⟨⟨70, 1⟩, ⟨70, 80⟩⟩⟩]

/-- Witness for `latestAnnotationFor_last`: in the 19/66 scenario the
navigation target is the line-66 statement, never the line-19 one. -/
theorem latestAnnotationFor_last_witness :
    (∃ st i, latestAnnotationFor "ProteinD" navigationDemo = some st ∧
      st.subjectName = "ProteinD" ∧ navigationDemo[i]? = some st ∧
      ∀ (j : Nat) (b : AnnotationStatement),
        navigationDemo[j]? = some b → b.subjectName = "ProteinD" → j ≤ i) ∧
    latestAnnotationFor "ProteinD" navigationDemo = some proteinDLine66 ∧
    proteinDLine66.range.start.line = 66 ∧
    latestAnnotationFor "ProteinD" navigationDemo ≠ some proteinDLine19 := by
  refine ⟨latestAnnotationFor_last "ProteinD" navigationDemo
      ⟨proteinDLine19, by simp [navigationDemo], rfl⟩, ?_, rfl, ?_⟩
  · rfl
  · decide

/-! ## Applying chosen annotation triples (C5)

`handleUpdateAnnotations` in `RecommendAnnotationModal.tsx` delegates the
textual update to the `AMAS-js` recommender library, whose sources are not
part of the given files, so the text transform is modelled from the
specification. -/

/-- A chosen `(subject, predicate, resourceURI)` triple handed back by the
recommendation subsystem. -/
structure ChosenTriple where
  subject : String
  predicate : String
  resourceURI : String
  deriving DecidableEq

/-- A line of the document, viewed by the annotation updater: either an
annotation statement for `(subjectName, predicate)` carrying a resource
URI, or any other text. -/
inductive DocLine where
  | annotStmt (subjectName predicate resourceURI : String) : DocLine
  | otherLine (text : String) : DocLine
  deriving DecidableEq

/-- Whether a chosen triple targets this line: only annotation statements
with the triple's subject and predicate are targeted. -/
def targetsLine (chosen : List ChosenTriple) : DocLine → Bool
  | .annotStmt s p _ => chosen.any (fun t => t.subject == s && t.predicate == p)
  | .otherLine _ => false

/-- Modelled from the spec: the per-line update of
`applyAnnotations(text, chosen)` — an annotation statement targeted by a
chosen triple gets that triple's resource URI; everything else is kept. -/
def updateLine (chosen : List ChosenTriple) (l : DocLine) : DocLine :=
  match l with
  | .annotStmt s p u =>
    match chosen.find? (fun t => t.subject == s && t.predicate == p) with
    | some t => .annotStmt s p t.resourceURI
    | none => .annotStmt s p u
  | .otherLine t => .otherLine t

/-- Modelled from the spec: `applyAnnotations(text, chosen)` (the missing
`AMAS-js` text update).  It updates targeted annotation statements in place
and appends a new annotation statement for every chosen triple that targets
no existing line; all other lines are untouched. -/
def applyAnnotations (text : List DocLine) (chosen : List ChosenTriple) :
    List DocLine :=
  text.map (updateLine chosen) ++
    ((chosen.filter
        (fun t => !(text.any (fun l => targetsLine [t] l)))).map
      (fun t => DocLine.annotStmt t.subject t.predicate t.resourceURI))

/-- (C5) Applying the chosen annotations only inserts or updates targeted
annotation statements: it is a pure function of `(text, chosen)`, every
untargeted line of the input reappears unchanged at its own position, and
every appended line is the annotation statement of a chosen triple. -/
theorem applyAnnotations_frame :
    (∀ (text : List DocLine) (chosen : List ChosenTriple),
      text.length ≤ (applyAnnotations text chosen).length) ∧
    (∀ (text : List DocLine) (chosen : List ChosenTriple) (i : Nat)
        (h : i < text.length) (h2 : i < (applyAnnotations text chosen).length),
      targetsLine chosen (text.get ⟨i, h⟩) = false →
      (applyAnnotations text chosen).get ⟨i, h2⟩ = text.get ⟨i, h⟩) ∧
    (∀ (text : List DocLine) (chosen : List ChosenTriple) (j : Nat)
        (h2 : j < (applyAnnotations text chosen).length),
      text.length ≤ j →
      ∃ t ∈ chosen, (applyAnnotations text chosen).get ⟨j, h2⟩ =
        DocLine.annotStmt t.subject t.predicate t.resourceURI) := by
  refine ⟨fun text chosen => ?_, fun text chosen i h h2 huntargeted => ?_,
    fun text chosen j h2 hj => ?_⟩
  · simp [applyAnnotations]
  · have hmap : i < (text.map (updateLine chosen)).length := by simpa using h
    have hleft : (applyAnnotations text chosen).get ⟨i, h2⟩ =
        (text.map (updateLine chosen)).get ⟨i, hmap⟩ := by
      simp [applyAnnotations, List.getElem_append_left hmap]
    rw [hleft, List.get_map]
    rcases hline : text.get ⟨i, h⟩ with ⟨s, p, u⟩ | t
    · have hany :
          chosen.any (fun t => t.subject == s && t.predicate == p) = false := by
        rw [hline] at huntargeted
        exact huntargeted
      have hfind :
          chosen.find? (fun t => t.subject == s && t.predicate == p) = none := by
        rw [List.find?_eq_none]
        intro t ht hmatch
        have htrue : chosen.any (fun t => t.subject == s && t.predicate == p)
            = true := List.any_eq_true.mpr ⟨t, ht, hmatch⟩
        rw [hany] at htrue
        exact Bool.noConfusion htrue
      simp [hline, updateLine, hfind]
    · simp [hline, updateLine]
  · have hmem : (applyAnnotations text chosen).get ⟨j, h2⟩ ∈
        ((chosen.filter
            (fun t => !(text.any (fun l => targetsLine [t] l)))).map
          (fun t => DocLine.annotStmt t.subject t.predicate t.resourceURI)) := by
      have hlen : (text.map (updateLine chosen)).length ≤ j := by simpa using hj
      have hb : j - (text.map (updateLine chosen)).length <
          ((chosen.filter
              (fun t => !(text.any (fun l => targetsLine [t] l)))).map
            (fun t => DocLine.annotStmt t.subject t.predicate t.resourceURI)).length := by
        have h2' := h2
        simp only [applyAnnotations, List.length_append, List.length_map] at h2'
        simp only [List.length_map] at hlen ⊢
        omega
      have heq : (applyAnnotations text chosen).get ⟨j, h2⟩ =
          ((chosen.filter
              (fun t => !(text.any (fun l => targetsLine [t] l)))).map
            (fun t => DocLine.annotStmt t.subject t.predicate t.resourceURI)).get
            ⟨j - (text.map (updateLine chosen)).length, hb⟩ := by
        simp only [applyAnnotations, List.get_eq_getElem]
        exact List.getElem_append_right hlen
      rw [heq]
      exact List.get_mem _ _ _
    obtain ⟨t, htf, hxt⟩ := List.mem_map.mp hmem
    exact ⟨t, List.mem_of_mem_filter htf, hxt.symm⟩

/-- Witness for `applyAnnotations_frame`: with one untargeted reaction line,
one targeted annotation statement and one fresh triple, the untargeted line
survives byte-for-byte and the appended line is the fresh triple. -/
theorem applyAnnotations_frame_witness :
    (applyAnnotations
        [DocLine.otherLine "J0: A -> B; k1*A",
         DocLine.annotStmt "A" "identity" "chebi:old"]
        [⟨"A", "identity", "chebi:new"⟩, ⟨"B", "identity", "chebi:fresh"⟩]).get
      ⟨0, by decide⟩ = DocLine.otherLine "J0: A -> B; k1*A" ∧
    (∃ t ∈ [ChosenTriple.mk "A" "identity" "chebi:new",
            ChosenTriple.mk "B" "identity" "chebi:fresh"],
      (applyAnnotations
        [DocLine.otherLine "J0: A -> B; k1*A",
         DocLine.annotStmt "A" "identity" "chebi:old"]
        [⟨"A", "identity", "chebi:new"⟩, ⟨"B", "identity", "chebi:fresh"⟩]).get
      ⟨2, by decide⟩ = DocLine.annotStmt t.subject t.predicate t.resourceURI) := by
  constructor
  · exact applyAnnotations_frame.2.1
      [DocLine.otherLine "J0: A -> B; k1*A",
       DocLine.annotStmt "A" "identity" "chebi:old"]
      [⟨"A", "identity", "chebi:new"⟩, ⟨"B", "identity", "chebi:fresh"⟩]
      0 (by decide) (by decide) (by decide)
  · exact applyAnnotations_frame.2.2
      [DocLine.otherLine "J0: A -> B; k1*A",
       DocLine.annotStmt "A" "identity" "chebi:old"]
      [⟨"A", "identity", "chebi:new"⟩, ⟨"B", "identity", "chebi:fresh"⟩]
      2 (by decide) (by decide)

/-! ## Diagnostics engine (C6)

No diagnostics-merging code is among the given sources, so the engine is
modelled from the specification: concatenate, remove exact duplicates
(same range + code + message), sort by (range start, severity descending,
code lexical order). -/

/-- Diagnostic severities; `Error` is the most severe. -/
inductive Severity where
  | error : Severity
  | warning : Severity
  | hint : Severity
  deriving DecidableEq

/-- Rank used for "severity descending": more severe sorts first. -/
def sevRank : Severity → Nat
  | .error => 0
  | .warning => 1
  | .hint => 2

/-- A diagnostic: severity, range, message and code. -/
structure Diagnostic where
  severity : Severity
  range : SrcRange
  message : String
  code : String
  deriving DecidableEq

/-- The exact-duplicate key of a diagnostic: range + code + message
(severity is not part of the key). -/
def dKey (d : Diagnostic) : SrcRange × String × String :=
  (d.range, d.code, d.message)

/-- The sort key: range start (line-major), then severity descending, then
code in lexical order (on the code's character sequence). -/
def sortKey (d : Diagnostic) : Nat ×ₗ (Nat ×ₗ (Nat ×ₗ List Char)) :=
  toLex (d.range.start.line,
    toLex (d.range.start.column, toLex (sevRank d.severity, d.code.data)))

/-- The sorting relation of the diagnostics engine. -/
def diagLE (a b : Diagnostic) : Prop := sortKey a ≤ sortKey b

instance : DecidableRel diagLE := fun a b =>
  inferInstanceAs (Decidable (sortKey a ≤ sortKey b))

instance : IsTotal Diagnostic diagLE :=
  ⟨fun a b => le_total (sortKey a) (sortKey b)⟩

instance : IsTrans Diagnostic diagLE :=
  ⟨fun _ _ _ hab hbc => le_trans hab hbc⟩

/-- Modelled from the spec: duplicate removal — of several diagnostics with
the same `dKey`, the first in sequence order is kept.  `seen` collects the
keys already emitted. -/
def dedupGo (seen : List (SrcRange × String × String)) :
    List Diagnostic → List Diagnostic
  | [] => []
  | d :: ds =>
    if dKey d ∈ seen then dedupGo seen ds
    else d :: dedupGo (dKey d :: seen) ds

/-- Modelled from the spec: exact-duplicate removal over a diagnostic
sequence, keeping first occurrences. -/
def dedupDiags (l : List Diagnostic) : List Diagnostic := dedupGo [] l

/-- Modelled from the spec: `merge(syntaxDiagnostics, semanticDiagnostics)`
— concatenation, duplicate removal, then the stable insertion sort by the
diagnostic order. -/
def mergeDiags (syntaxDiags semanticDiags : List Diagnostic) :
    List Diagnostic :=
  (dedupDiags (syntaxDiags ++ semanticDiags)).insertionSort diagLE

theorem dedupGo_subset {l : List Diagnostic} {x : Diagnostic} :
    ∀ {seen}, x ∈ dedupGo seen l → x ∈ l := by
  induction l with
  | nil => intro seen hx; simpa [dedupGo] using hx
  | cons d ds ih =>
    intro seen hx
    by_cases hs : dKey d ∈ seen
    · rw [dedupGo, if_pos hs] at hx
      exact List.mem_cons_of_mem d (ih hx)
    · rw [dedupGo, if_neg hs] at hx
      rcases List.mem_cons.mp hx with h | h
      · exact h ▸ List.mem_cons_self d ds
      · exact List.mem_cons_of_mem d (ih h)

theorem dedupGo_not_seen {l : List Diagnostic} {x : Diagnostic} :
    ∀ {seen}, x ∈ dedupGo seen l → dKey x ∉ seen := by
  induction l with
  | nil => intro seen hx; simp [dedupGo] at hx
  | cons d ds ih =>
    intro seen hx
    by_cases hs : dKey d ∈ seen
    · rw [dedupGo, if_pos hs] at hx
      exact ih hx
    · rw [dedupGo, if_neg hs] at hx
      rcases List.mem_cons.mp hx with h | h
      · rw [h]; exact hs
      · intro hmem
        exact ih h (List.mem_cons_of_mem _ hmem)

theorem dedupGo_pairwise (l : List Diagnostic) :
    ∀ seen, (dedupGo seen l).Pairwise (fun a b => dKey a ≠ dKey b) := by
  induction l with
  | nil => intro seen; rw [dedupGo]; exact List.Pairwise.nil
  | cons d ds ih =>
    intro seen
    by_cases hs : dKey d ∈ seen
    · rw [dedupGo, if_pos hs]; exact ih seen
    · rw [dedupGo, if_neg hs]
      refine List.Pairwise.cons (fun b hb => ?_) (ih _)
      have := dedupGo_not_seen hb
      intro hdb
      exact this (hdb ▸ List.mem_cons_self _ _)

theorem dedupGo_complete {l : List Diagnostic} {x : Diagnostic} (hx : x ∈ l) :
    ∀ seen, dKey x ∈ seen ∨ ∃ y ∈ dedupGo seen l, dKey y = dKey x := by
  induction l with
  | nil => simp at hx
  | cons d ds ih =>
    intro seen
    by_cases hs : dKey d ∈ seen
    · rw [dedupGo, if_pos hs]
      rcases List.mem_cons.mp hx with h | h
      · exact Or.inl (h ▸ hs)
      · exact ih h seen
    · rw [dedupGo, if_neg hs]
      rcases List.mem_cons.mp hx with h | h
      · exact Or.inr ⟨d, List.mem_cons_self _ _, by rw [h]⟩
      · rcases ih h (dKey d :: seen) with hmem | ⟨y, hy, hyk⟩
        · rcases List.mem_cons.mp hmem with hk | hk
          · exact Or.inr ⟨d, List.mem_cons_self _ _, hk.symm⟩
          · exact Or.inl hk
        · exact Or.inr ⟨y, List.mem_cons_of_mem _ hy, hyk⟩

theorem dedupDiags_subset {l : List Diagnostic} {x : Diagnostic}
    (hx : x ∈ dedupDiags l) : x ∈ l :=
  dedupGo_subset hx

theorem dedupDiags_pairwise (l : List Diagnostic) :
    (dedupDiags l).Pairwise (fun a b => dKey a ≠ dKey b) :=
  dedupGo_pairwise l []

theorem dedupDiags_complete {l : List Diagnostic} {x : Diagnostic}
    (hx : x ∈ l) : ∃ y ∈ dedupDiags l, dKey y = dKey x := by
  rcases dedupGo_complete hx [] with h | h
  · simp at h
  · exact h

/-- (C6) `merge` concatenates the two diagnostic sequences, removes exact
duplicates (same range + code + message), and returns the result sorted by
(range start, severity descending, code lexical order); it is a pure
function, so re-running it on identical inputs yields the identical ordered
sequence. -/
theorem mergeDiags_spec :
    ∀ syntaxDiags semanticDiags : List Diagnostic,
      List.Sorted diagLE (mergeDiags syntaxDiags semanticDiags) ∧
      List.Pairwise (fun a b => dKey a ≠ dKey b)
        (mergeDiags syntaxDiags semanticDiags) ∧
      (∀ x ∈ mergeDiags syntaxDiags semanticDiags,
        x ∈ syntaxDiags ++ semanticDiags) ∧
      (∀ x ∈ syntaxDiags ++ semanticDiags,
        ∃ y ∈ mergeDiags syntaxDiags semanticDiags, dKey y = dKey x) := by
  intro s t
  have hperm : List.Perm ((dedupDiags (s ++ t)).insertionSort diagLE)
      (dedupDiags (s ++ t)) :=
    List.perm_insertionSort diagLE (dedupDiags (s ++ t))
  refine ⟨List.sorted_insertionSort diagLE (dedupDiags (s ++ t)), ?_, ?_, ?_⟩
  · exact (hperm.pairwise_iff (fun h => Ne.symm h)).mpr
      (dedupDiags_pairwise (s ++ t))
  · intro x hx
    exact dedupDiags_subset (hperm.mem_iff.mp hx)
  · intro x hx
    obtain ⟨y, hy, hyk⟩ := dedupDiags_complete hx
    exact ⟨y, hperm.mem_iff.mpr hy, hyk⟩

/-- Witness for `mergeDiags_spec`: two overlapping diagnostic lists — the
duplicated entry survives once, and the merged list is the sorted
three-element sequence. -/
theorem mergeDiags_spec_witness :
    (List.Sorted diagLE (mergeDiags
        [⟨.error, ⟨⟨2, 1⟩, ⟨2, 5⟩⟩, "unexpected token", "SyntaxError"⟩,
         ⟨.warning, ⟨⟨1, 1⟩, ⟨1, 3⟩⟩, "duplicate declaration", "DuplicateDeclaration"⟩]
        [⟨.warning, ⟨⟨1, 1⟩, ⟨1, 3⟩⟩, "duplicate declaration", "DuplicateDeclaration"⟩,
         ⟨.error, ⟨⟨1, 1⟩, ⟨1, 3⟩⟩, "undefined reference", "UndefinedReference"⟩])) ∧
    mergeDiags
        [⟨.error, ⟨⟨2, 1⟩, ⟨2, 5⟩⟩, "unexpected token", "SyntaxError"⟩,
         ⟨.warning, ⟨⟨1, 1⟩, ⟨1, 3⟩⟩, "duplicate declaration", "DuplicateDeclaration"⟩]
        [⟨.warning, ⟨⟨1, 1⟩, ⟨1, 3⟩⟩, "duplicate declaration", "DuplicateDeclaration"⟩,
         ⟨.error, ⟨⟨1, 1⟩, ⟨1, 3⟩⟩, "undefined reference", "UndefinedReference"⟩] =
      [⟨.error, ⟨⟨1, 1⟩, ⟨1, 3⟩⟩, "undefined reference", "UndefinedReference"⟩,
       ⟨.warning, ⟨⟨1, 1⟩, ⟨1, 3⟩⟩, "duplicate declaration", "DuplicateDeclaration"⟩,
       ⟨.error, ⟨⟨2, 1⟩, ⟨2, 5⟩⟩, "unexpected token", "SyntaxError"⟩] := by
  constructor
  · exact (mergeDiags_spec
      [⟨.error, ⟨⟨2, 1⟩, ⟨2, 5⟩⟩, "unexpected token", "SyntaxError"⟩,
       ⟨.warning, ⟨⟨1, 1⟩, ⟨1, 3⟩⟩, "duplicate declaration", "DuplicateDeclaration"⟩]
      [⟨.warning, ⟨⟨1, 1⟩, ⟨1, 3⟩⟩, "duplicate declaration", "DuplicateDeclaration"⟩,
       ⟨.error, ⟨⟨1, 1⟩, ⟨1, 3⟩⟩, "undefined reference", "UndefinedReference"⟩]).1
  · decide

/-! ## Notes normalizer (C2, C4)

`processContent` of `AntimonyEditor.tsx` is not among the given sources
(only its tests, which feed it a `model notes` fenced block containing
HTML `<b>` markup and expect `**…**` output, are), so the normalizer is
modelled from the specification: identify fenced notes regions delimited
by triple-backtick markers, convert a fixed table of inline markup tags to
their lightweight-markup equivalents inside the region, leave everything
else byte-for-byte unchanged, and leave unterminated fences untouched. -/

/-- The fence marker delimiting a notes region. -/
def fence : List Char := ['`', '`', '`']

/-- Modelled from the spec: the fixed tag-mapping table (bold, strong,
italic, emphasis), the "data, not logic" of the normalizer. -/
def tags : List (List Char × List Char) :=
  [(['<', 'b', '>'], ['*', '*']),
   (['<', '/', 'b', '>'], ['*', '*']),
   (['<', 's', 't', 'r', 'o', 'n', 'g', '>'], ['*', '*']),
   (['<', '/', 's', 't', 'r', 'o', 'n', 'g', '>'], ['*', '*']),
   (['<', 'i', '>'], ['*']),
   (['<', '/', 'i', '>'], ['*']),
   (['<', 'e', 'm', '>'], ['*']),
   (['<', '/', 'e', 'm', '>'], ['*'])]

/-- The first tag of the table matching at the head of `cs`, paired with
its replacement. -/
def tagAt (cs : List Char) : Option (List Char × List Char) :=
  tags.findSome? (fun pr => if pr.1.isPrefixOf cs then some pr else none)

theorem tags_shape :
    ∀ pr ∈ tags, 3 ≤ pr.1.length ∧
      (∃ q, pr.1 = '<' :: q ∧ (∀ c ∈ q, c ≠ '*' ∧ c ≠ '<')) ∧
      pr.2 ≠ [] ∧ (∀ c ∈ pr.2, c = '*') := by
  intro pr hpr
  fin_cases hpr <;>
    exact ⟨by decide, ⟨_, rfl, by decide⟩, by decide, by decide⟩

theorem tagAt_some {cs : List Char} {pr : List Char × List Char}
    (h : tagAt cs = some pr) : pr ∈ tags ∧ pr.1 <+: cs := by
  obtain ⟨a, ha, hfa⟩ := List.exists_of_findSome?_eq_some h
  by_cases hp : a.1.isPrefixOf cs
  · rw [if_pos hp] at hfa
    cases hfa
    exact ⟨ha, List.isPrefixOf_iff_prefix.mp hp⟩
  · rw [if_neg hp] at hfa
    exact absurd hfa (Option.noConfusion)

theorem tagAt_none_iff {cs : List Char} :
    tagAt cs = none ↔ ∀ pr ∈ tags, ¬ pr.1 <+: cs := by
  rw [tagAt, List.findSome?_eq_none_iff]
  constructor
  · intro h pr hpr hpre
    have := h pr hpr
    rw [if_pos (List.isPrefixOf_iff_prefix.mpr hpre)] at this
    exact Option.noConfusion this
  · intro h pr hpr
    rw [if_neg (fun hp => h pr hpr (List.isPrefixOf_iff_prefix.mp hp))]

theorem tagAt_none_of_head {c : Char} (hc : c ≠ '<') (w : List Char) :
    tagAt (c :: w) = none := by
  rw [tagAt_none_iff]
  intro pr hpr hpre
  obtain ⟨_, ⟨q, hq, _⟩, _, _⟩ := tags_shape pr hpr
  rw [hq] at hpre
  exact hc ((List.cons_prefix_cons.mp hpre).1).symm

theorem tagAt_drop_lt {cs : List Char} {pr : List Char × List Char}
    (h : tagAt cs = some pr) : (cs.drop pr.1.length).length < cs.length := by
  obtain ⟨hmem, hpre⟩ := tagAt_some h
  obtain ⟨h3, _, _, _⟩ := tags_shape pr hmem
  have hle := hpre.length_le
  simp only [List.length_drop]
  omega

/-- Modelled from the spec: the in-block markup conversion — each tag of
the table is replaced by its lightweight equivalent, all other characters
are copied. -/
def convertTags (cs : List Char) : List Char :=
  match h : tagAt cs with
  | some pr => pr.2 ++ convertTags (cs.drop pr.1.length)
  | none =>
    match cs with
    | [] => []
    | c :: rest => c :: convertTags rest
termination_by cs.length
decreasing_by
  · exact tagAt_drop_lt h
  · simp

theorem convertTags_nil : convertTags [] = [] := by
  rw [convertTags]
  split
  · rename_i pr heq
    rw [show tagAt [] = none from by decide] at heq
    exact Option.noConfusion heq
  · rfl

theorem convertTags_pos {cs : List Char} {pr : List Char × List Char}
    (h : tagAt cs = some pr) :
    convertTags cs = pr.2 ++ convertTags (cs.drop pr.1.length) := by
  rw [convertTags]
  split
  · rename_i pr' heq
    rw [h] at heq
    cases heq
    rfl
  · rename_i heq
    rw [h] at heq
    exact Option.noConfusion heq

theorem convertTags_neg {c : Char} {cs : List Char}
    (h : tagAt (c :: cs) = none) :
    convertTags (c :: cs) = c :: convertTags cs := by
  rw [convertTags]
  split
  · rename_i pr' heq
    rw [h] at heq
    exact Option.noConfusion heq
  · rfl

/-- Start-of-list fence test: if `cs` starts with the triple-backtick
marker, return the remainder. -/
def fenceAt (cs : List Char) : Option (List Char) :=
  if fence.isPrefixOf cs then some (cs.drop 3) else none

/-- Split at the first fence marker: `some (before, after)` when a fence
occurs, with `before` the fence-free text in front of it. -/
def splitFence : List Char → Option (List Char × List Char)
  | [] => none
  | c :: cs =>
    match fenceAt (c :: cs) with
    | some rest => some ([], rest)
    | none => (splitFence cs).map (fun p => (c :: p.1, p.2))

/-- No fence marker starts anywhere in `cs`. -/
def noFence : List Char → Bool
  | [] => true
  | c :: cs => !(fence.isPrefixOf (c :: cs)) && noFence cs

/-- `a` stays fence-free even when a fence marker is appended after it:
no marker starts in `a`, not even one completed by following backticks. -/
def goodPre (a : List Char) : Bool := noFence (a ++ ['`', '`'])

theorem noFence_append_right {x y : List Char}
    (h : noFence (x ++ y) = true) : noFence y = true := by
  induction x with
  | nil => exact h
  | cons c x ih =>
    rw [List.cons_append, noFence, Bool.and_eq_true] at h
    exact ih h.2

theorem fence_isPrefixOf_congr {x y z : List Char} (hx : x ≠ [])
    (h2 : y.take 2 = z.take 2) :
    fence.isPrefixOf (x ++ y) = fence.isPrefixOf (x ++ z) := by
  rw [Bool.eq_iff_iff, List.isPrefixOf_iff_prefix, List.isPrefixOf_iff_prefix,
    List.prefix_iff_eq_take, List.prefix_iff_eq_take,
    List.take_append_eq_append_take, List.take_append_eq_append_take]
  have hlen : 1 ≤ x.length := by
    cases x with
    | nil => exact absurd rfl hx
    | cons c cs => simp
  have hle : (fence.length - x.length) ≤ 2 := by
    rw [show fence.length = 3 from rfl]
    omega
  have hyz : y.take (fence.length - x.length) =
      z.take (fence.length - x.length) := by
    have hy : y.take (fence.length - x.length) =
        (y.take 2).take (fence.length - x.length) := by
      rw [List.take_take, Nat.min_eq_left hle]
    have hz : z.take (fence.length - x.length) =
        (z.take 2).take (fence.length - x.length) := by
      rw [List.take_take, Nat.min_eq_left hle]
    rw [hy, hz, h2]
  rw [hyz]

theorem not_prefix_of_isPrefixOf_eq_false {p l : List Char}
    (h : p.isPrefixOf l = false) : ¬ p <+: l := by
  intro hp
  rw [← List.isPrefixOf_iff_prefix, h] at hp
  exact Bool.noConfusion hp

theorem isPrefixOf_eq_false_of_no_pre {p l : List Char}
    (h : ¬ p <+: l) : p.isPrefixOf l = false := by
  cases hval : p.isPrefixOf l with
  | false => rfl
  | true => exact absurd (List.isPrefixOf_iff_prefix.mp hval) h

theorem splitFence_eq {cs : List Char} :
    ∀ {a b : List Char}, splitFence cs = some (a, b) →
      cs = a ++ fence ++ b ∧ goodPre a = true := by
  induction cs with
  | nil => intro a b h; exact absurd h (by simp [splitFence])
  | cons c cs ih =>
    intro a b h
    rw [splitFence] at h
    split at h
    · rename_i rest heq
      rw [fenceAt] at heq
      split at heq
      · rename_i hpre
        injection heq with heq'
        injection h with h'
        injection h' with ha hb
        obtain ⟨t, ht⟩ := List.isPrefixOf_iff_prefix.mp hpre
        refine ⟨?_, ?_⟩
        · rw [← ha, ← hb, ← heq', ← ht]
          simp [fence]
        · rw [← ha]
          decide
      · exact Option.noConfusion heq
    · rename_i heq
      rw [Option.map_eq_some'] at h
      obtain ⟨p, hp, hpe⟩ := h
      obtain ⟨hcs, hgood⟩ := ih hp
      have hnone : fence.isPrefixOf (c :: cs) = false := by
        rw [fenceAt] at heq
        split at heq
        · exact Option.noConfusion heq
        · rename_i hpre
          exact isPrefixOf_eq_false_of_no_pre (by simpa using hpre)
      injection hpe with ha hb
      refine ⟨?_, ?_⟩
      · rw [← ha, ← hb, hcs]
        simp
      · rw [← ha, goodPre, List.cons_append, noFence, Bool.and_eq_true]
        refine ⟨?_, hgood⟩
        have hcong : fence.isPrefixOf (c :: (p.1 ++ ['`', '`'])) =
            fence.isPrefixOf (c :: (p.1 ++ (fence ++ p.2))) := by
          have := fence_isPrefixOf_congr (x := c :: p.1)
            (y := ['`', '`']) (z := fence ++ p.2) (by simp) (by simp [fence])
          simpa using this
        have hback : c :: (p.1 ++ (fence ++ p.2)) = c :: cs := by
          rw [hcs]; simp
        rw [hcong, hback, hnone]
        simp

theorem splitFence_length {cs a b : List Char}
    (h : splitFence cs = some (a, b)) : b.length + 3 ≤ cs.length := by
  obtain ⟨hcs, _⟩ := splitFence_eq h
  rw [hcs]
  simp only [List.length_append, fence, List.length_cons, List.length_nil]
  omega

theorem splitFence_reassemble {a : List Char} (hgood : goodPre a = true)
    (x : List Char) : splitFence (a ++ fence ++ x) = some (a, x) := by
  induction a with
  | nil =>
    rw [show (([] : List Char) ++ fence ++ x) = '`' :: ('`' :: '`' :: x) by
      simp [fence]]
    rw [splitFence]
    rw [show fenceAt ('`' :: '`' :: '`' :: x) = some x by
      rw [fenceAt, if_pos (by simp [fence, List.isPrefixOf])]
      simp]
  | cons c a ih =>
    have htail : goodPre a = true := by
      rw [goodPre, List.cons_append, noFence, Bool.and_eq_true] at hgood
      exact hgood.2
    have hnf : fence.isPrefixOf (c :: (a ++ ['`', '`'])) = false := by
      rw [goodPre, List.cons_append, noFence, Bool.and_eq_true] at hgood
      rcases hgood with ⟨hg, _⟩
      simpa using hg
    have hnf2 : fence.isPrefixOf (c :: (a ++ (fence ++ x))) = false := by
      have := fence_isPrefixOf_congr (x := c :: a)
        (y := fence ++ x) (z := ['`', '`']) (by simp) (by simp [fence])
      simpa using this.trans hnf
    rw [show ((c :: a) ++ fence ++ x) = c :: (a ++ (fence ++ x)) by simp]
    rw [splitFence]
    rw [show fenceAt (c :: (a ++ (fence ++ x))) = none by
      rw [fenceAt, if_neg (by simp [hnf2])]]
    rw [show a ++ (fence ++ x) = a ++ fence ++ x by simp]
    rw [ih htail]
    rfl

/-- Modelled from the spec: `normalizeNotes(text)` — find a fenced notes
region, convert the markup inside it, keep everything around it, and
continue after the region; an unterminated fence leaves the text
untouched. -/
def normalizeNotes (cs : List Char) : List Char :=
  match h1 : splitFence cs with
  | none => cs
  | some (before, afterOpen) =>
    match h2 : splitFence afterOpen with
    | none => cs
    | some (content, rest) =>
      before ++ fence ++ convertTags content ++ fence ++ normalizeNotes rest
termination_by cs.length
decreasing_by
  have l1 := splitFence_length h1
  have l2 := splitFence_length h2
  omega

/-- Whether the text contains a complete fenced notes region. -/
def hasNotesBlock (cs : List Char) : Bool :=
  match splitFence cs with
  | none => false
  | some (_, afterOpen) =>
    match splitFence afterOpen with
    | none => false
    | some _ => true

theorem normalizeNotes_eq_self {cs : List Char}
    (h : hasNotesBlock cs = false) : normalizeNotes cs = cs := by
  rw [hasNotesBlock] at h
  rw [normalizeNotes]
  split
  · rfl
  · rename_i before afterOpen h1
    split
    · rfl
    · rename_i content rest h2
      rw [h1] at h
      simp only [h2] at h
      exact Bool.noConfusion h

theorem normalizeNotes_eq_two {cs before afterOpen content rest : List Char}
    (h1 : splitFence cs = some (before, afterOpen))
    (h2 : splitFence afterOpen = some (content, rest)) :
    normalizeNotes cs =
      before ++ fence ++ convertTags content ++ fence ++ normalizeNotes rest := by
  rw [normalizeNotes]
  split
  · rename_i hn
    rw [hn] at h1
    exact Option.noConfusion h1
  · rename_i before2 afterOpen2 hs
    rw [hs] at h1
    injection h1 with h1'
    injection h1' with hbe haf
    subst hbe
    subst haf
    split
    · rename_i hn2
      rw [hn2] at h2
      exact Option.noConfusion h2
    · rename_i content2 rest2 hs2
      rw [hs2] at h2
      injection h2 with h2'
      injection h2' with hco hre
      rw [hco, hre]

theorem fence_not_prefix_of_ne {c : Char} (hc : c ≠ '`') (w : List Char) :
    fence.isPrefixOf (c :: w) = false := by
  apply isPrefixOf_eq_false_of_no_pre
  intro hp
  rw [fence] at hp
  exact hc ((List.cons_prefix_cons.mp hp).1).symm

theorem noFence_append_no_backtick (r : List Char)
    (hr : ∀ c ∈ r, c ≠ '`') (w : List Char) :
    noFence (r ++ w) = noFence w := by
  induction r with
  | nil => rfl
  | cons c r ih =>
    rw [List.cons_append, noFence,
      fence_not_prefix_of_ne (hr c (List.mem_cons_self _ _)) _,
      ih (fun x hx => hr x (List.mem_cons_of_mem _ hx))]
    simp

theorem convertTags_extract :
    ∀ (q : List Char), (∀ c ∈ q, c ≠ '*') →
      ∀ (cs pad w : List Char), convertTags cs ++ pad = q ++ w →
        ∃ v, cs ++ pad = q ++ v := by
  intro q
  induction q with
  | nil => intro _ cs pad w _; exact ⟨cs ++ pad, by simp⟩
  | cons qc q ih =>
    intro hq cs pad w h
    cases cs with
    | nil =>
      rw [convertTags_nil, List.nil_append] at h
      exact ⟨w, by rw [List.nil_append, h, List.cons_append]⟩
    | cons c cs =>
      rcases htag : tagAt (c :: cs) with _ | pr
      · rw [convertTags_neg htag, List.cons_append] at h
        rw [List.cons_append] at h
        injection h with h1 h2
        obtain ⟨v, hv⟩ :=
          ih (fun x hx => hq x (List.mem_cons_of_mem _ hx)) cs pad w h2
        refine ⟨v, ?_⟩
        rw [List.cons_append, hv, h1, List.cons_append]
      · rw [convertTags_pos htag] at h
        obtain ⟨hmem, _⟩ := tagAt_some htag
        obtain ⟨_, _, hne, hstar⟩ := tags_shape pr hmem
        cases hrep : pr.2 with
        | nil => exact absurd hrep hne
        | cons r0 rs =>
          have hr0 : r0 = '*' :=
            hstar r0 (by rw [hrep]; exact List.mem_cons_self _ _)
          rw [hrep] at h
          simp only [List.cons_append, List.append_assoc] at h
          injection h with h1 _
          exact absurd (by rw [← h1]; exact hr0)
            (hq qc (List.mem_cons_self _ _))

theorem convertTags_append_left (u : List Char) (hu : ∀ c ∈ u, c ≠ '<')
    (w : List Char) : convertTags (u ++ w) = u ++ convertTags w := by
  induction u with
  | nil => simp
  | cons c u ih =>
    rw [List.cons_append,
      convertTags_neg (tagAt_none_of_head (hu c (List.mem_cons_self _ _)) _),
      ih (fun x hx => hu x (List.mem_cons_of_mem _ hx)), List.cons_append]

theorem convertTags_noFence (cs : List Char) :
    ∀ pad, noFence (cs ++ pad) = true →
      noFence (convertTags cs ++ pad) = true := by
  induction cs using convertTags.induct with
  | case1 cs pr h ih =>
    intro pad hnf
    rw [convertTags_pos h]
    obtain ⟨hmem, hpre⟩ := tagAt_some h
    obtain ⟨_, _, _, hstar⟩ := tags_shape pr hmem
    rw [List.append_assoc,
      noFence_append_no_backtick pr.2
        (fun c hcm => by rw [hstar c hcm]; decide) _]
    apply ih
    obtain ⟨t, ht⟩ := hpre
    have hdrop : cs.drop pr.1.length = t := by
      rw [← ht, List.drop_left]
    rw [hdrop]
    apply noFence_append_right (x := pr.1)
    rw [← List.append_assoc, ht]
    exact hnf
  | case2 =>
    intro pad hp
    rw [convertTags_nil]
    exact hp
  | case3 c rest h h2 ih =>
    intro pad hnf
    rw [convertTags_neg h]
    rw [List.cons_append, noFence, Bool.and_eq_true]
    have htail : noFence (rest ++ pad) = true := by
      rw [List.cons_append, noFence, Bool.and_eq_true] at hnf
      exact hnf.2
    refine ⟨?_, ih pad htail⟩
    by_cases hc : c = '`'
    · subst hc
      cases hpre : fence.isPrefixOf ('`' :: (convertTags rest ++ pad)) with
      | false => simp
      | true =>
        exfalso
        obtain ⟨t, ht⟩ := List.isPrefixOf_iff_prefix.mp hpre
        rw [fence] at ht
        injection ht with _ ht2
        obtain ⟨v, hv⟩ := convertTags_extract ['`', '`'] (by decide)
          rest pad t ht2.symm
        have hfp : fence.isPrefixOf ('`' :: (rest ++ pad)) = true := by
          apply List.isPrefixOf_iff_prefix.mpr
          rw [fence, hv]
          exact ⟨v, by simp⟩
        rw [List.cons_append, noFence, Bool.and_eq_true] at hnf
        rw [hfp] at hnf
        simpa using hnf.1
    · rw [fence_not_prefix_of_ne hc]
      simp

theorem convertTags_idem (cs : List Char) :
    convertTags (convertTags cs) = convertTags cs := by
  induction cs using convertTags.induct with
  | case1 cs pr h ih =>
    rw [convertTags_pos h]
    obtain ⟨hmem, _⟩ := tagAt_some h
    obtain ⟨_, _, _, hstar⟩ := tags_shape pr hmem
    rw [convertTags_append_left pr.2
      (fun c hcm => by rw [hstar c hcm]; decide), ih]
  | case2 => rw [convertTags_nil, convertTags_nil]
  | case3 c rest h h2 ih =>
    rw [convertTags_neg h]
    have hnone : tagAt (c :: convertTags rest) = none := by
      rw [tagAt_none_iff]
      intro pr hpr hp
      obtain ⟨_, ⟨q, hq, hqc⟩, _, _⟩ := tags_shape pr hpr
      rw [hq] at hp
      obtain ⟨hc, hqpre⟩ := List.cons_prefix_cons.mp hp
      obtain ⟨t, ht⟩ := hqpre
      obtain ⟨v, hv⟩ := convertTags_extract q (fun x hx => (hqc x hx).1)
        rest [] t (by rw [List.append_nil, ht])
      rw [List.append_nil] at hv
      refine (tagAt_none_iff.mp h) pr hpr ?_
      rw [hq, ← hc]
      exact List.cons_prefix_cons.mpr ⟨rfl, ⟨v, hv.symm⟩⟩
    rw [convertTags_neg hnone, ih]


theorem normalizeNotes_eq_none {cs : List Char} (h1 : splitFence cs = none) :
    normalizeNotes cs = cs := by
  apply normalizeNotes_eq_self
  rw [hasNotesBlock, h1]

theorem normalizeNotes_eq_one {cs before afterOpen : List Char}
    (h1 : splitFence cs = some (before, afterOpen))
    (h2 : splitFence afterOpen = none) : normalizeNotes cs = cs := by
  apply normalizeNotes_eq_self
  rw [hasNotesBlock, h1]
  simp only [h2]

/-- (C2) `normalizeNotes` is idempotent, and a text with no complete
fenced notes region is returned unchanged. -/
theorem normalizeNotes_idem :
    (∀ s : List Char, normalizeNotes (normalizeNotes s) = normalizeNotes s) ∧
    (∀ s : List Char, hasNotesBlock s = false → normalizeNotes s = s) := by
  refine ⟨?_, fun s h => normalizeNotes_eq_self h⟩
  intro s
  induction s using normalizeNotes.induct with
  | case1 cs h1 =>
    rw [normalizeNotes_eq_none h1, normalizeNotes_eq_none h1]
  | case2 cs before afterOpen h1 h2 =>
    rw [normalizeNotes_eq_one h1 h2, normalizeNotes_eq_one h1 h2]
  | case3 cs before afterOpen h1 content rest h2 ih =>
    rw [normalizeNotes_eq_two h1 h2]
    obtain ⟨hcs, hgpre⟩ := splitFence_eq h1
    obtain ⟨hafter, hgcontent⟩ := splitFence_eq h2
    have hgct : goodPre (convertTags content) = true :=
      convertTags_noFence content ['`', '`'] hgcontent
    have hshape :
        before ++ fence ++ convertTags content ++ fence ++ normalizeNotes rest =
          before ++ fence ++
            (convertTags content ++ fence ++ normalizeNotes rest) := by
      simp [List.append_assoc]
    have hsplit1 :
        splitFence (before ++ fence ++
            (convertTags content ++ fence ++ normalizeNotes rest)) =
          some (before, convertTags content ++ fence ++ normalizeNotes rest) :=
      splitFence_reassemble hgpre _
    have hsplit2 :
        splitFence (convertTags content ++ fence ++ normalizeNotes rest) =
          some (convertTags content, normalizeNotes rest) :=
      splitFence_reassemble hgct _
    rw [hshape, normalizeNotes_eq_two hsplit1 hsplit2, convertTags_idem, ih]
    simp [List.append_assoc]

/-- Witness for `normalizeNotes_idem`: a fence-free text is returned
unchanged, and normalizing the editor test's notes document twice equals
normalizing it once. -/
theorem normalizeNotes_idem_witness :
    normalizeNotes ("A: x\nB: y\nA has identity \"urn:foo\"".toList) =
      "A: x\nB: y\nA has identity \"urn:foo\"".toList ∧
    normalizeNotes (normalizeNotes
        ("model notes ```\n<b>x</b>\n```\nend".toList)) =
      normalizeNotes ("model notes ```\n<b>x</b>\n```\nend".toList) := by
  constructor
  · exact normalizeNotes_idem.2 _ (by decide)
  · exact normalizeNotes_idem.1 _

/-- (C4) On a text made of a fence-free prefix, a fenced notes region and a
fence-free remainder, `normalizeNotes` converts only the region's content
and keeps every byte outside the region (the surrounding `model … end`
structure included) unchanged; inside the region, a bold tag pair around
markup-free text becomes that text wrapped in double asterisks. -/
theorem normalizeNotes_bold :
    (∀ pre content post : List Char,
      goodPre pre = true → goodPre content = true →
      hasNotesBlock post = false →
      normalizeNotes (pre ++ fence ++ content ++ fence ++ post) =
        pre ++ fence ++ convertTags content ++ fence ++ post) ∧
    (∀ u w : List Char, (∀ c ∈ u, c ≠ '<') →
      convertTags (['<', 'b', '>'] ++ (u ++ (['<', '/', 'b', '>'] ++ w))) =
        ['*', '*'] ++ (u ++ (['*', '*'] ++ convertTags w))) := by
  constructor
  · intro pre content post hpre hcontent hpost
    have hshape : pre ++ fence ++ content ++ fence ++ post =
        pre ++ fence ++ (content ++ fence ++ post) := by
      simp [List.append_assoc]
    have hsplit1 :
        splitFence (pre ++ fence ++ (content ++ fence ++ post)) =
          some (pre, content ++ fence ++ post) :=
      splitFence_reassemble hpre _
    have hsplit2 : splitFence (content ++ fence ++ post) =
        some (content, post) :=
      splitFence_reassemble hcontent _
    rw [hshape, normalizeNotes_eq_two hsplit1 hsplit2,
      normalizeNotes_eq_self hpost]
  · intro u w hu
    have hopen : tagAt ('<' :: 'b' :: '>' :: (u ++ (['<', '/', 'b', '>'] ++ w)))
        = some (['<', 'b', '>'], ['*', '*']) := by
      rw [tagAt, tags]
      rw [List.findSome?_cons]
      rw [if_pos (by simp [List.isPrefixOf])]
    have hclose : tagAt ('<' :: '/' :: 'b' :: '>' :: w)
        = some (['<', '/', 'b', '>'], ['*', '*']) := by
      rw [tagAt, tags]
      rw [List.findSome?_cons]
      rw [if_neg (by simp [List.isPrefixOf]), List.findSome?_cons]
      rw [if_pos (by simp [List.isPrefixOf])]
    rw [show ['<', 'b', '>'] ++ (u ++ (['<', '/', 'b', '>'] ++ w)) =
        '<' :: 'b' :: '>' :: (u ++ (['<', '/', 'b', '>'] ++ w)) from rfl]
    rw [convertTags_pos hopen]
    rw [show ('<' :: 'b' :: '>' :: (u ++ (['<', '/', 'b', '>'] ++ w))).drop
        (['<', 'b', '>'].length) = u ++ (['<', '/', 'b', '>'] ++ w) from rfl]
    rw [convertTags_append_left u hu]
    rw [show (['<', '/', 'b', '>'] ++ w : List Char) =
        '<' :: '/' :: 'b' :: '>' :: w from rfl]
    rw [convertTags_pos hclose]
    rw [show ('<' :: '/' :: 'b' :: '>' :: w).drop
        (['<', '/', 'b', '>'].length) = w from rfl]

/-- Witness for `normalizeNotes_bold`: the editor test's notes document —
`<b>convert this to markdown</b>` inside the fenced `model notes` block
becomes `**convert this to markdown**`, with the prefix line, the fences
and the trailing `end` untouched. -/
theorem normalizeNotes_bold_witness :
    normalizeNotes
        ("A: lprll1p2r1lplp laplfsdf\nmodel notes ".toList ++ fence ++
          "\n\t\t<b>convert this to markdown</b>\n\t".toList ++ fence ++
          "\nend".toList) =
      "A: lprll1p2r1lplp laplfsdf\nmodel notes ".toList ++ fence ++
        convertTags "\n\t\t<b>convert this to markdown</b>\n\t".toList ++
        fence ++ "\nend".toList ∧
    convertTags (['<', 'b', '>'] ++
        ("convert this to markdown".toList ++ (['<', '/', 'b', '>'] ++ []))) =
      ['*', '*'] ++ ("convert this to markdown".toList ++
        (['*', '*'] ++ convertTags [])) := by
  constructor
  · exact normalizeNotes_bold.1
      "A: lprll1p2r1lplp laplfsdf\nmodel notes ".toList
      "\n\t\t<b>convert this to markdown</b>\n\t".toList
      "\nend".toList (by decide) (by decide) (by decide)
  · exact normalizeNotes_bold.2 "convert this to markdown".toList []
      (by decide)


/-! ## Tokenizer (C3, C7, C8)

Shallow embedding of the Monarch tokenizer table `antimonyLanguage` of
`src/unnamed/part_001` under the Monarch matching discipline: the rules of
the `root` state are tried in order at the current position of the
remaining line (each regex is compiled anchored, `'^(?:…)'`, and run on
`line.substring(pos)`), the first matching rule emits its token and the
position advances by the match length; when no rule matches, one character
is consumed as a token of the default class (`'source'`, no `defaultToken`
is configured).  A leading `\b` therefore just requires the first
character of the remainder to be a word character, and a trailing `\b`
inspects the character following the match.  JS alternations are ordered
with backtracking; the matchers below implement the resulting first-match
semantics for this table's regexes. -/

/-- JS regex `\w`: `[A-Za-z0-9_]`. -/
def wordChar (c : Char) : Bool := c.isAlpha || c.isDigit || c == '_'

/-- The character class `[\w$]` of the identifier rule. -/
def wordDollarChar (c : Char) : Bool := wordChar c || c == '$'

/-- A trailing `\b` after a word character: the next character (if any)
must not be a word character. -/
def nonWordOrEnd : Option Char → Bool
  | none => true
  | some c => !wordChar c

/-- A trailing `\b` after a non-word character: the next character must
exist and be a word character. -/
def wordAt : Option Char → Bool
  | none => false
  | some c => wordChar c

/-- Rule `/\/\/.*/` (`'comment'`): two slashes take the rest of the line. -/
def matchComment (cs : List Char) : Option Nat :=
  if cs.take 2 = ['/', '/'] then some cs.length else none

/-- Rule `/"[^"]*"/` (`'string'`). -/
def matchString (cs : List Char) : Option Nat :=
  if cs.head? = some '"' then
    let body := (cs.drop 1).takeWhile (fun c => !(c == '"'))
    if (cs.drop (1 + body.length)).head? = some '"' then
      some (body.length + 2)
    else none
  else none

/-- Rule `/\(|\)/` (`'connected-parentheses'`). -/
def matchParens (cs : List Char) : Option Nat :=
  if cs.head? = some '(' ∨ cs.head? = some ')' then some 1 else none

/-- Rule `/=>|->/` (`'transform'`). -/
def matchTransform (cs : List Char) : Option Nat :=
  if cs.take 2 = ['=', '>'] ∨ cs.take 2 = ['-', '>'] then some 2 else none

/-- Rule `/=|:=/` (`'assign'`); the `=` alternative is tried first. -/
def matchAssign (cs : List Char) : Option Nat :=
  if cs.head? = some '=' then some 1
  else if cs.take 2 = [':', '='] then some 2
  else none

/-- Rule `'\-|\+|\*|\/|\^|\;'` (`'operator'`). -/
def matchOperator (cs : List Char) : Option Nat :=
  if cs.head? ∈ ([some '-', some '+', some '*', some '/', some '^', some ';'] :
      List (Option Char)) then some 1
  else none

/-- Ordered alternation of whole words, each requiring a trailing word
boundary (rule 7's `\b(at|in|import|has)\b`; its leading `\b` is vacuous
because every alternative begins with a word character). -/
def matchWordList (ws : List (List Char)) (cs : List Char) : Option Nat :=
  ws.findSome? (fun w =>
    if w.isPrefixOf cs ∧ nonWordOrEnd ((cs.drop w.length).head?) = true then
      some w.length
    else none)

/-- The four keywords of rule 7, in alternation order. -/
def kwList : List (List Char) :=
  ["at".toList, "in".toList, "import".toList, "has".toList]

def matchKw (cs : List Char) : Option Nat := matchWordList kwList cs

/-- The annotation-predicate alternation of rule 8, in source order.  The
regex has no word boundaries, so the first alternative that is a prefix of
the remainder wins. -/
def annotList : List (List Char) :=
  ["identity".toList, "is".toList, "model_source".toList,
   "biological_entity_is".toList, "hasPart".toList, "isPartOf".toList,
   "parthood".toList, "part".toList, "isVersionOf".toList,
   "hypernym".toList, "biological_system".toList, "hasVersion".toList,
   "version".toList, "isHomologTo".toList, "homolog".toList,
   "isDescribedBy".toList, "description".toList, "publication".toList,
   "isEncodedBy".toList, "encoder".toList, "encodes".toList,
   "encodement".toList, "occursIn".toList, "container".toList,
   "hasProperty".toList, "property".toList, "isPropertyOf".toList,
   "propertyBearer".toList, "hasTaxon".toList, "taxon".toList,
   "sboTerm".toList, "model_entity_is".toList, "origin".toList,
   "isDerivedFrom".toList, "hasInstance".toList, "instance".toList]

def matchAnnot (cs : List Char) : Option Nat :=
  annotList.findSome? (fun w => if w.isPrefixOf cs then some w.length else none)

/-- Rule 9, `/\b[a-zA-Z0-9_]+\:/` (`'react-remov'`): a word-character run
followed by a colon. -/
def matchColonLabel (cs : List Char) : Option Nat :=
  let run := (cs.takeWhile wordChar).length
  if 1 ≤ run ∧ (cs.drop run).head? = some ':' then some (run + 1) else none

/-- The `cases` of rule 10: the matched text is compared with the fixed
keys; anything else is `'other'`. -/
def identClass (lexeme : List Char) : String :=
  if lexeme = "const".toList then "const"
  else if lexeme = "unit".toList then "unit"
  else if lexeme = "var".toList then "var"
  else if lexeme = "species".toList then "species"
  else if lexeme = "function".toList then "function"
  else if lexeme = "model".toList then "model"
  else if lexeme = "end".toList then "end"
  else if lexeme = "compartment".toList then "compartment"
  else "other"

/-- Rule 10, `/@?[a-zA-Z][\w$]*/` with its `cases`: an optional `@`, a
letter, then word-or-dollar characters, classified by `identClass`. -/
def matchIdent (cs : List Char) : Option (String × Nat) :=
  let atLen := if cs.head? = some '@' then 1 else 0
  match (cs.drop atLen).head? with
  | some c =>
    if c.isAlpha then
      let run := ((cs.drop (atLen + 1)).takeWhile wordDollarChar).length
      some (identClass (cs.take (atLen + 1 + run)), atLen + 1 + run)
    else none
  | none => none

/-- `[0-9a-fA-F]`. -/
def hexDigit (c : Char) : Bool :=
  c.isDigit || ('a' ≤ c && c ≤ 'f') || ('A' ≤ c && c ≤ 'F')

/-- `[0-7]`. -/
def octDigit (c : Char) : Bool := '0' ≤ c && c ≤ '7'

/-- `[01]`. -/
def binDigit (c : Char) : Bool := c == '0' || c == '1'

/-- The `0x`/`0o`/`0b` alternatives of rule 11. -/
def radixTail (cs : List Char) (p : Char → Bool) : Option Nat :=
  let h := ((cs.drop 2).takeWhile p).length
  if 1 ≤ h ∧ nonWordOrEnd ((cs.drop (2 + h)).head?) = true then some (2 + h)
  else none

def matchRadix (cs : List Char) : Option Nat :=
  if cs.head? = some '0' then
    match (cs.drop 1).head? with
    | some x =>
      if x = 'x' ∨ x = 'X' then radixTail cs hexDigit
      else if x = 'o' then radixTail cs octDigit
      else if x = 'b' then radixTail cs binDigit
      else none
    | none => none
  else none

/-- The digit run and trailing boundary (with optional `f` suffix) shared
by the exponent alternatives of rule 11, entered at offset `k`. -/
def matchExpTail (cs : List Char) (k : Nat) : Option Nat :=
  if 1 ≤ ((cs.drop k).takeWhile Char.isDigit).length then
    if nonWordOrEnd ((cs.drop
        (k + ((cs.drop k).takeWhile Char.isDigit).length)).head?) = true then
      some (k + ((cs.drop k).takeWhile Char.isDigit).length)
    else if (cs.drop (k + ((cs.drop k).takeWhile Char.isDigit).length)).head?
          = some 'f' ∧
        nonWordOrEnd ((cs.drop
          (k + ((cs.drop k).takeWhile Char.isDigit).length + 1)).head?)
          = true then
      some (k + ((cs.drop k).takeWhile Char.isDigit).length + 1)
    else none
  else none

/-- The `\d+[eE][-+]?\d+`, `\d+[eE][-+]?\d+f` and `\d+f` alternatives of
rule 11, entered after `d ≥ 1` leading digits. -/
def matchExpSuffix (cs : List Char) (d : Nat) : Option Nat :=
  match (cs.drop d).head? with
  | some ch =>
    if ch = 'e' ∨ ch = 'E' then
      if (cs.drop (d + 1)).head? = some '+' ∨
          (cs.drop (d + 1)).head? = some '-' then
        matchExpTail cs (d + 1 + 1)
      else matchExpTail cs (d + 1)
    else if ch = 'f' then
      if nonWordOrEnd ((cs.drop (d + 1)).head?) = true then some (d + 1)
      else none
    else none
  | none => none

/-- The first alternative `\d+(\.\d*)?` of rule 11 with its trailing `\b`,
after `d ≥ 1` leading digits, under JS backtracking: the fraction is tried
greedily, then shrunk to the bare dot, then dropped (so `1.5e3` matches as
`1.`, and `12.x` as `12.`). -/
def matchDecimal (cs : List Char) (d : Nat) : Option Nat :=
  if (cs.drop d).head? = some '.' then
    if 1 ≤ ((cs.drop (d + 1)).takeWhile Char.isDigit).length then
      if nonWordOrEnd ((cs.drop
          (d + 1 + ((cs.drop (d + 1)).takeWhile Char.isDigit).length)).head?)
          = true then
        some (d + 1 + ((cs.drop (d + 1)).takeWhile Char.isDigit).length)
      else some (d + 1)
    else if wordAt ((cs.drop (d + 1)).head?) = true then some (d + 1)
    else some d
  else if nonWordOrEnd ((cs.drop d).head?) = true then some d else none

/-- Rule 11 (`'number'`): the combined numeric-literal regex, under JS
ordered-alternation backtracking.  The leading `\b` requires a word
character first; the `\.\d+` alternative is unreachable behind that `\b`;
then `\d+(\.\d*)?`, the radix forms, and the exponent/`f`-suffixed forms
are tried in order. -/
def matchNumber (cs : List Char) : Option Nat :=
  match cs.head? with
  | none => none
  | some c =>
    if wordChar c = true then
      if 1 ≤ (cs.takeWhile Char.isDigit).length then
        match matchDecimal cs (cs.takeWhile Char.isDigit).length with
        | some n => some n
        | none =>
          match matchRadix cs with
          | some n => some n
          | none => matchExpSuffix cs (cs.takeWhile Char.isDigit).length
      else
        match matchRadix cs with
        | some n => some n
        | none => none
    else none

/-- The root state's rules in source order: the first matching rule
determines the token class and length. -/
def matchRules (cs : List Char) : Option (String × Nat) :=
  match matchComment cs with
  | some n => some ("comment", n)
  | none =>
  match matchString cs with
  | some n => some ("string", n)
  | none =>
  match matchParens cs with
  | some n => some ("connected-parentheses", n)
  | none =>
  match matchTransform cs with
  | some n => some ("transform", n)
  | none =>
  match matchAssign cs with
  | some n => some ("assign", n)
  | none =>
  match matchOperator cs with
  | some n => some ("operator", n)
  | none =>
  match matchKw cs with
  | some n => some ("keywords", n)
  | none =>
  match matchAnnot cs with
  | some n => some ("annotation", n)
  | none =>
  match matchColonLabel cs with
  | some n => some ("react-remov", n)
  | none =>
  match matchIdent cs with
  | some p => some p
  | none =>
  match matchNumber cs with
  | some n => some ("number", n)
  | none => none


theorem matchComment_pos {cs : List Char} {n : Nat}
    (h : matchComment cs = some n) : 1 ≤ n := by
  unfold matchComment at h
  split_ifs at h with hc
  injection h with h'
  have h2 : (cs.take 2).length = 2 := by rw [hc]; rfl
  rw [List.length_take] at h2
  omega

theorem matchString_pos {cs : List Char} {n : Nat}
    (h : matchString cs = some n) : 1 ≤ n := by
  unfold matchString at h
  dsimp only at h
  split_ifs at h
  injection h with h'
  omega

theorem matchParens_pos {cs : List Char} {n : Nat}
    (h : matchParens cs = some n) : 1 ≤ n := by
  unfold matchParens at h
  split_ifs at h
  injection h with h'
  omega

theorem matchTransform_pos {cs : List Char} {n : Nat}
    (h : matchTransform cs = some n) : 1 ≤ n := by
  unfold matchTransform at h
  split_ifs at h
  injection h with h'
  omega

theorem matchAssign_pos {cs : List Char} {n : Nat}
    (h : matchAssign cs = some n) : 1 ≤ n := by
  unfold matchAssign at h
  split_ifs at h <;> (injection h with h'; omega)

theorem matchOperator_pos {cs : List Char} {n : Nat}
    (h : matchOperator cs = some n) : 1 ≤ n := by
  unfold matchOperator at h
  split_ifs at h
  injection h with h'
  omega

theorem matchWordList_pos {ws : List (List Char)} {cs : List Char} {n : Nat}
    (hws : ∀ w ∈ ws, 1 ≤ w.length) (h : matchWordList ws cs = some n) :
    1 ≤ n := by
  unfold matchWordList at h
  obtain ⟨w, hw, hfw⟩ := List.exists_of_findSome?_eq_some h
  split_ifs at hfw
  injection hfw with h'
  rw [← h']
  exact hws w hw

theorem matchAnnot_pos {cs : List Char} {n : Nat}
    (h : matchAnnot cs = some n) : 1 ≤ n := by
  unfold matchAnnot at h
  obtain ⟨w, hw, hfw⟩ := List.exists_of_findSome?_eq_some h
  split_ifs at hfw
  injection hfw with h'
  rw [← h']
  have hlen : ∀ w ∈ annotList, 1 ≤ w.length := by decide
  exact hlen w hw

theorem matchColonLabel_pos {cs : List Char} {n : Nat}
    (h : matchColonLabel cs = some n) : 1 ≤ n := by
  unfold matchColonLabel at h
  dsimp only at h
  split_ifs at h
  injection h with h'
  omega

theorem matchIdent_pos {cs : List Char} {cls : String} {n : Nat}
    (h : matchIdent cs = some (cls, n)) : 1 ≤ n := by
  unfold matchIdent at h
  dsimp only at h
  split_ifs at h <;>
    · split at h
      · split_ifs at h
        injection h with h'
        injection h' with h1 h2
        omega
      · exact Option.noConfusion h

theorem matchExpTail_pos {cs : List Char} {k n : Nat} (hk : 1 ≤ k)
    (h : matchExpTail cs k = some n) : 1 ≤ n := by
  unfold matchExpTail at h
  split_ifs at h <;>
    first
    | (injection h with h'; omega)
    | exact Option.noConfusion h

theorem matchExpSuffix_pos {cs : List Char} {d n : Nat}
    (h : matchExpSuffix cs d = some n) : 1 ≤ n := by
  unfold matchExpSuffix at h
  split at h
  · split_ifs at h <;>
      first
      | exact matchExpTail_pos (by omega) h
      | (injection h with h'; omega)
      | exact Option.noConfusion h
  · exact Option.noConfusion h

theorem matchRadix_pos {cs : List Char} {n : Nat}
    (h : matchRadix cs = some n) : 1 ≤ n := by
  unfold matchRadix at h
  split_ifs at h
  split at h
  · split_ifs at h <;>
      first
      | (unfold radixTail at h; dsimp only at h; split_ifs at h;
         injection h with h'; omega)
      | exact Option.noConfusion h
  · exact Option.noConfusion h

theorem matchDecimal_pos {cs : List Char} {d n : Nat} (hd : 1 ≤ d)
    (h : matchDecimal cs d = some n) : 1 ≤ n := by
  unfold matchDecimal at h
  split_ifs at h <;>
    first
    | (injection h with h'; omega)
    | exact Option.noConfusion h

theorem matchNumber_pos {cs : List Char} {n : Nat}
    (h : matchNumber cs = some n) : 1 ≤ n := by
  unfold matchNumber at h
  split at h
  · exact Option.noConfusion h
  · split_ifs at h with hw hd
    · split at h
      · rename_i m hdec
        injection h with h'
        have := matchDecimal_pos hd hdec
        omega
      · split at h
        · rename_i m hrad
          injection h with h'
          have := matchRadix_pos hrad
          omega
        · exact matchExpSuffix_pos h
    · split at h
      · rename_i m hrad
        injection h with h'
        have := matchRadix_pos hrad
        omega
      · exact Option.noConfusion h

theorem matchRules_pos {cs : List Char} {cls : String} {n : Nat}
    (h : matchRules cs = some (cls, n)) : 1 ≤ n := by
  unfold matchRules at h
  split at h
  · rename_i hm; injection h with h'; cases h'
    exact matchComment_pos hm
  · split at h
    · rename_i hm; injection h with h'; cases h'
      exact matchString_pos hm
    · split at h
      · rename_i hm; injection h with h'; cases h'
        exact matchParens_pos hm
      · split at h
        · rename_i hm; injection h with h'; cases h'
          exact matchTransform_pos hm
        · split at h
          · rename_i hm; injection h with h'; cases h'
            exact matchAssign_pos hm
          · split at h
            · rename_i hm; injection h with h'; cases h'
              exact matchOperator_pos hm
            · split at h
              · rename_i hm; injection h with h'; cases h'
                exact matchWordList_pos (by decide) hm
              · split at h
                · rename_i hm; injection h with h'; cases h'
                  exact matchAnnot_pos hm
                · split at h
                  · rename_i hm; injection h with h'; cases h'
                    exact matchColonLabel_pos hm
                  · split at h
                    · rename_i p hm; injection h with h'; cases h'
                      exact matchIdent_pos hm
                    · split at h
                      · rename_i hm; injection h with h'; cases h'
                        exact matchNumber_pos hm
                      · exact Option.noConfusion h

theorem head?_drop_lt {cs : List Char} {k : Nat} {x : Char}
    (h : (cs.drop k).head? = some x) : k < cs.length := by
  by_contra hk
  rw [List.drop_eq_nil_of_le (by omega)] at h
  exact Option.noConfusion h

theorem head?_some_pos {cs : List Char} {x : Char}
    (h : cs.head? = some x) : 1 ≤ cs.length := by
  cases cs with
  | nil => exact Option.noConfusion h
  | cons c rest => simp

theorem take_eq_two_le {cs : List Char} {a b : Char}
    (h : cs.take 2 = [a, b]) : 2 ≤ cs.length := by
  have := congrArg List.length h
  rw [List.length_take] at this
  simp at this
  omega

theorem takeWhile_drop_len (cs : List Char) (p : Char → Bool) (k : Nat) :
    ((cs.drop k).takeWhile p).length ≤ cs.length - k := by
  have h := (List.takeWhile_sublist p (l := cs.drop k)).length_le
  rw [List.length_drop] at h
  exact h

theorem matchComment_le {cs : List Char} {n : Nat}
    (h : matchComment cs = some n) : n ≤ cs.length := by
  unfold matchComment at h
  split_ifs at h
  injection h with h'
  omega

theorem matchString_le {cs : List Char} {n : Nat}
    (h : matchString cs = some n) : n ≤ cs.length := by
  unfold matchString at h
  dsimp only at h
  split_ifs at h with h1 h2
  injection h with h'
  have := head?_drop_lt h2
  omega

theorem matchParens_le {cs : List Char} {n : Nat}
    (h : matchParens cs = some n) : n ≤ cs.length := by
  unfold matchParens at h
  split_ifs at h with hc
  injection h with h'
  rcases hc with hc | hc <;> (have h9 := head?_some_pos hc; omega)

theorem matchTransform_le {cs : List Char} {n : Nat}
    (h : matchTransform cs = some n) : n ≤ cs.length := by
  unfold matchTransform at h
  split_ifs at h with hc
  injection h with h'
  rcases hc with hc | hc <;> (have h9 := take_eq_two_le hc; omega)

theorem matchAssign_le {cs : List Char} {n : Nat}
    (h : matchAssign cs = some n) : n ≤ cs.length := by
  unfold matchAssign at h
  split_ifs at h with h1 h2
  · injection h with h'
    have := head?_some_pos h1
    omega
  · injection h with h'
    have := take_eq_two_le h2
    omega

theorem matchOperator_le {cs : List Char} {n : Nat}
    (h : matchOperator cs = some n) : n ≤ cs.length := by
  unfold matchOperator at h
  split_ifs at h with hc
  injection h with h'
  simp only [List.mem_cons, List.not_mem_nil, or_false] at hc
  rcases hc with hc | hc | hc | hc | hc | hc <;>
    (have h9 := head?_some_pos hc; omega)

theorem matchWordList_le {ws : List (List Char)} {cs : List Char} {n : Nat}
    (h : matchWordList ws cs = some n) : n ≤ cs.length := by
  unfold matchWordList at h
  obtain ⟨w, hw, hfw⟩ := List.exists_of_findSome?_eq_some h
  split_ifs at hfw with hcond
  injection hfw with h'
  rw [← h']
  exact (List.isPrefixOf_iff_prefix.mp hcond.1).length_le

theorem matchAnnot_le {cs : List Char} {n : Nat}
    (h : matchAnnot cs = some n) : n ≤ cs.length := by
  unfold matchAnnot at h
  obtain ⟨w, hw, hfw⟩ := List.exists_of_findSome?_eq_some h
  split_ifs at hfw with hcond
  injection hfw with h'
  rw [← h']
  exact (List.isPrefixOf_iff_prefix.mp hcond).length_le

theorem matchColonLabel_le {cs : List Char} {n : Nat}
    (h : matchColonLabel cs = some n) : n ≤ cs.length := by
  unfold matchColonLabel at h
  dsimp only at h
  split_ifs at h with hc
  injection h with h'
  have := head?_drop_lt hc.2
  omega

theorem matchIdent_le {cs : List Char} {cls : String} {n : Nat}
    (h : matchIdent cs = some (cls, n)) : n ≤ cs.length := by
  unfold matchIdent at h
  dsimp only at h
  split_ifs at h with hat
  · split at h
    · rename_i c hc
      split_ifs at h
      injection h with h'
      injection h' with h1 h2
      have hlt := head?_drop_lt hc
      have hw := takeWhile_drop_len cs wordDollarChar (1 + 1)
      omega
    · exact Option.noConfusion h
  · split at h
    · rename_i c hc
      split_ifs at h
      injection h with h'
      injection h' with h1 h2
      have hlt := head?_drop_lt hc
      have hw := takeWhile_drop_len cs wordDollarChar (0 + 1)
      omega
    · exact Option.noConfusion h

theorem wordAt_some {o : Option Char} (h : wordAt o = true) :
    ∃ c, o = some c := by
  cases o with
  | none => exact Bool.noConfusion h
  | some c => exact ⟨c, rfl⟩

theorem matchDecimal_le {cs : List Char} {d n : Nat} (hdle : d ≤ cs.length)
    (h : matchDecimal cs d = some n) : n ≤ cs.length := by
  unfold matchDecimal at h
  have hf := takeWhile_drop_len cs Char.isDigit (d + 1)
  split_ifs at h with h1 h2 h3 h4 h5 <;>
    first
    | exact Option.noConfusion h
    | (injection h with h'; subst h'; try exact hdle)
  · have := head?_drop_lt h1
    omega
  · have := head?_drop_lt h1
    omega
  · obtain ⟨c, hc⟩ := wordAt_some h4
    have := head?_drop_lt hc
    omega

theorem matchRadix_le {cs : List Char} {n : Nat}
    (h : matchRadix cs = some n) : n ≤ cs.length := by
  unfold matchRadix at h
  split_ifs at h with h0
  split at h
  · rename_i x hx
    have hlt := head?_drop_lt hx
    have hwx := takeWhile_drop_len cs hexDigit 2
    have hwo := takeWhile_drop_len cs octDigit 2
    have hwb := takeWhile_drop_len cs binDigit 2
    split_ifs at h <;>
      · unfold radixTail at h
        dsimp only at h
        split_ifs at h with hcond
        injection h with h'
        omega
  · exact Option.noConfusion h

theorem matchExpTail_le {cs : List Char} {k n : Nat}
    (h : matchExpTail cs k = some n) : n ≤ cs.length := by
  unfold matchExpTail at h
  have hm := takeWhile_drop_len cs Char.isDigit k
  split_ifs at h with h1 h2 h3
  · injection h with h'
    omega
  · injection h with h'
    have := head?_drop_lt h3.1
    omega

theorem matchExpSuffix_le {cs : List Char} {d n : Nat}
    (h : matchExpSuffix cs d = some n) : n ≤ cs.length := by
  unfold matchExpSuffix at h
  split at h
  · rename_i ch hch
    have hd := head?_drop_lt hch
    split_ifs at h <;>
      first
      | exact matchExpTail_le h
      | (injection h with h'; omega)
      | exact Option.noConfusion h
  · exact Option.noConfusion h

theorem matchNumber_le {cs : List Char} {n : Nat}
    (h : matchNumber cs = some n) : n ≤ cs.length := by
  unfold matchNumber at h
  split at h
  · exact Option.noConfusion h
  · split_ifs at h with hw hd
    · split at h
      · rename_i m hdec
        injection h with h'
        subst h'
        exact matchDecimal_le ((List.takeWhile_sublist _).length_le) hdec
      · split at h
        · rename_i m hrad
          injection h with h'
          subst h'
          exact matchRadix_le hrad
        · exact matchExpSuffix_le h
    · split at h
      · rename_i m hrad
        injection h with h'
        subst h'
        exact matchRadix_le hrad
      · exact Option.noConfusion h

theorem matchRules_le {cs : List Char} {cls : String} {n : Nat}
    (h : matchRules cs = some (cls, n)) : n ≤ cs.length := by
  unfold matchRules at h
  split at h
  · rename_i hm; injection h with h'; cases h'
    exact matchComment_le hm
  · split at h
    · rename_i hm; injection h with h'; cases h'
      exact matchString_le hm
    · split at h
      · rename_i hm; injection h with h'; cases h'
        exact matchParens_le hm
      · split at h
        · rename_i hm; injection h with h'; cases h'
          exact matchTransform_le hm
        · split at h
          · rename_i hm; injection h with h'; cases h'
            exact matchAssign_le hm
          · split at h
            · rename_i hm; injection h with h'; cases h'
              exact matchOperator_le hm
            · split at h
              · rename_i hm; injection h with h'; cases h'
                exact matchWordList_le hm
              · split at h
                · rename_i hm; injection h with h'; cases h'
                  exact matchAnnot_le hm
                · split at h
                  · rename_i hm; injection h with h'; cases h'
                    exact matchColonLabel_le hm
                  · split at h
                    · rename_i p hm; injection h with h'; cases h'
                      exact matchIdent_le hm
                    · split at h
                      · rename_i hm; injection h with h'; cases h'
                        exact matchNumber_le hm
                      · exact Option.noConfusion h

/-- A token: Monarch token class, start column in the line, and the
consumed text. -/
structure Token where
  cls : String
  pos : Nat
  lexeme : List Char
  deriving DecidableEq

/-- The Monarch scanning loop over one line, with explicit fuel (one unit
per emitted token; `cs.length` always suffices because every match
consumes at least one character).  When no rule matches, one character is
consumed as a token of the engine's default class `'source'`. -/
def tokenizeGo : Nat → List Char → Nat → List Token
  | _, [], _ => []
  | 0, _ :: _, _ => []
  | fuel + 1, c :: rest, pos =>
    match matchRules (c :: rest) with
    | some (cls, n) =>
      ⟨cls, pos, (c :: rest).take n⟩ ::
        tokenizeGo fuel ((c :: rest).drop n) (pos + n)
    | none => ⟨"source", pos, [c]⟩ :: tokenizeGo fuel rest (pos + 1)

/-- Tokenize one line (Monarch feeds the tokenizer line by line). -/
def tokenizeLine (cs : List Char) : List Token := tokenizeGo cs.length cs 0

/-- Split a text into its lines at newline characters. -/
def splitLines : List Char → List (List Char)
  | [] => [[]]
  | c :: rest =>
    if c = '\n' then [] :: splitLines rest
    else
      match splitLines rest with
      | l :: ls => (c :: l) :: ls
      | [] => [[c]]

/-- Rejoin lines with newline characters. -/
def joinLines : List (List Char) → List Char
  | [] => []
  | l :: ls =>
    match ls with
    | [] => l
    | _ :: _ => l ++ '\n' :: joinLines ls

theorem joinLines_single (l : List Char) : joinLines [l] = l := rfl

theorem joinLines_cons_cons (l l2 : List Char) (ls : List (List Char)) :
    joinLines (l :: l2 :: ls) = l ++ '\n' :: joinLines (l2 :: ls) := rfl

/-- Concatenation of the lexemes of a token stream. -/
def lexConcat (ts : List Token) : List Char :=
  ts.foldr (fun t acc => t.lexeme ++ acc) []

/-- The positions of a token stream are consistent: starting at `p`, each
token starts where the previous one ended, and no token is empty. -/
def posOk (p : Nat) : List Token → Prop
  | [] => True
  | t :: ts => t.pos = p ∧ t.lexeme ≠ [] ∧ posOk (p + t.lexeme.length) ts

theorem splitLines_ne_nil (cs : List Char) : splitLines cs ≠ [] := by
  induction cs with
  | nil => simp [splitLines]
  | cons c rest ih =>
    rw [splitLines]
    split_ifs
    · simp
    · split
      · simp
      · simp

theorem joinLines_splitLines (cs : List Char) :
    joinLines (splitLines cs) = cs := by
  induction cs with
  | nil => rfl
  | cons c rest ih =>
    rw [splitLines]
    split_ifs with hc
    · subst hc
      obtain ⟨l, ls, hs⟩ := List.exists_cons_of_ne_nil (splitLines_ne_nil rest)
      rw [hs] at ih ⊢
      rw [joinLines_cons_cons, ih]
      rfl
    · obtain ⟨l, ls, hs⟩ := List.exists_cons_of_ne_nil (splitLines_ne_nil rest)
      simp only [hs]
      rw [hs] at ih
      cases ls with
      | nil =>
        rw [joinLines_single]
        rw [joinLines_single] at ih
        rw [ih]
      | cons l2 ls2 =>
        rw [joinLines_cons_cons] at ih
        rw [joinLines_cons_cons, List.cons_append, ih]

theorem tokenizeGo_concat (fuel : Nat) :
    ∀ (cs : List Char) (pos : Nat), cs.length ≤ fuel →
      lexConcat (tokenizeGo fuel cs pos) = cs := by
  induction fuel with
  | zero =>
    intro cs pos hle
    cases cs with
    | nil => rfl
    | cons c rest => simp at hle
  | succ fuel ih =>
    intro cs pos hle
    cases cs with
    | nil => rfl
    | cons c rest =>
      rw [tokenizeGo]
      split
      · rename_i cls n hm
        rw [lexConcat, List.foldr_cons]
        have hn := matchRules_pos hm
        have hlen : ((c :: rest).drop n).length ≤ fuel := by
          rw [List.length_drop]
          simp only [List.length_cons] at hle ⊢
          omega
        have := ih ((c :: rest).drop n) (pos + n) hlen
        rw [lexConcat] at this
        rw [this]
        exact List.take_append_drop n (c :: rest)
      · rw [lexConcat, List.foldr_cons]
        have hlen : rest.length ≤ fuel := by
          simp only [List.length_cons] at hle
          omega
        have := ih rest (pos + 1) hlen
        rw [lexConcat] at this
        rw [this]
        rfl

theorem tokenizeGo_posOk (fuel : Nat) :
    ∀ (cs : List Char) (pos : Nat), cs.length ≤ fuel →
      posOk pos (tokenizeGo fuel cs pos) := by
  induction fuel with
  | zero =>
    intro cs pos hle
    cases cs with
    | nil => trivial
    | cons c rest => simp at hle
  | succ fuel ih =>
    intro cs pos hle
    cases cs with
    | nil => trivial
    | cons c rest =>
      rw [tokenizeGo]
      split
      · rename_i cls n hm
        have hn := matchRules_pos hm
        have hnle := matchRules_le hm
        have htake : ((c :: rest).take n).length = n := by
          rw [List.length_take]
          simp only [List.length_cons] at hnle ⊢
          omega
        refine ⟨rfl, ?_, ?_⟩
        · intro hnil
          have := congrArg List.length hnil
          rw [htake] at this
          simp at this
          omega
        · rw [htake]
          have hlen : ((c :: rest).drop n).length ≤ fuel := by
            rw [List.length_drop]
            simp only [List.length_cons] at hle ⊢
            omega
          exact ih ((c :: rest).drop n) (pos + n) hlen
      · refine ⟨rfl, by simp, ?_⟩
        have hlen : rest.length ≤ fuel := by
          simp only [List.length_cons] at hle
          omega
        exact ih rest (pos + 1) hlen


theorem map_self {α : Type} (l : List α) (f : α → α) (h : ∀ a ∈ l, f a = a) :
    l.map f = l := by
  induction l with
  | nil => rfl
  | cons a l ih =>
    rw [List.map_cons, h a (List.mem_cons_self _ _),
      ih (fun b hb => h b (List.mem_cons_of_mem _ hb))]

theorem identClass_ne_source (lexeme : List Char) :
    identClass lexeme ≠ "source" := by
  unfold identClass
  split_ifs <;> decide

theorem matchRules_cls_ne_source {cs : List Char} {cls : String} {n : Nat}
    (h : matchRules cs = some (cls, n)) : cls ≠ "source" := by
  unfold matchRules at h
  split at h
  · injection h with h'; cases h'; decide
  · split at h
    · injection h with h'; cases h'; decide
    · split at h
      · injection h with h'; cases h'; decide
      · split at h
        · injection h with h'; cases h'; decide
        · split at h
          · injection h with h'; cases h'; decide
          · split at h
            · injection h with h'; cases h'; decide
            · split at h
              · injection h with h'; cases h'; decide
              · split at h
                · injection h with h'; cases h'; decide
                · split at h
                  · injection h with h'; cases h'; decide
                  · split at h
                    · rename_i p hm
                      injection h with h'
                      cases h'
                      unfold matchIdent at hm
                      dsimp only at hm
                      split_ifs at hm <;>
                        · split at hm
                          · split_ifs at hm
                            injection hm with hm'
                            injection hm' with hc1 hc2
                            rw [← hc1]
                            exact identClass_ne_source _
                          · exact Option.noConfusion hm
                    · split at h
                      · injection h with h'; cases h'; decide
                      · exact Option.noConfusion h

theorem tokenizeGo_pos_ge (fuel : Nat) :
    ∀ (cs : List Char) (pos : Nat) (t : Token),
      t ∈ tokenizeGo fuel cs pos → pos ≤ t.pos := by
  induction fuel with
  | zero =>
    intro cs pos t ht
    cases cs with
    | nil => simp [tokenizeGo] at ht
    | cons c rest => simp [tokenizeGo] at ht
  | succ fuel ih =>
    intro cs pos t ht
    cases cs with
    | nil => simp [tokenizeGo] at ht
    | cons c rest =>
      rw [tokenizeGo] at ht
      split at ht
      · rename_i cls n hm
        rcases List.mem_cons.mp ht with h | h
        · rw [h]
        · have := ih ((c :: rest).drop n) (pos + n) t h
          omega
      · rcases List.mem_cons.mp ht with h | h
        · rw [h]
        · have := ih rest (pos + 1) t h
          omega

theorem tokenizeGo_source (fuel : Nat) :
    ∀ (cs : List Char) (pos : Nat), cs.length ≤ fuel →
      ∀ t ∈ tokenizeGo fuel cs pos, t.cls = "source" →
        ∃ (c : Char) (suffix : List Char), t.lexeme = [c] ∧
          cs.drop (t.pos - pos) = c :: suffix ∧
          matchRules (c :: suffix) = none := by
  induction fuel with
  | zero =>
    intro cs pos hle t ht
    cases cs with
    | nil => simp [tokenizeGo] at ht
    | cons c rest => simp at hle
  | succ fuel ih =>
    intro cs pos hle t ht hcls
    cases cs with
    | nil => simp [tokenizeGo] at ht
    | cons c rest =>
      rw [tokenizeGo] at ht
      split at ht
      · rename_i cls n hm
        rcases List.mem_cons.mp ht with h | h
        · rw [h] at hcls
          exact absurd hcls (matchRules_cls_ne_source hm)
        · have hn := matchRules_pos hm
          have hlen : ((c :: rest).drop n).length ≤ fuel := by
            rw [List.length_drop]
            simp only [List.length_cons] at hle ⊢
            omega
          obtain ⟨x, suffix, hlex, hdrop, hnone⟩ :=
            ih ((c :: rest).drop n) (pos + n) hlen t h hcls
          have hge := tokenizeGo_pos_ge fuel ((c :: rest).drop n) (pos + n) t h
          refine ⟨x, suffix, hlex, ?_, hnone⟩
          rw [List.drop_drop] at hdrop
          rw [show t.pos - pos = n + (t.pos - (pos + n)) by omega]
          exact hdrop
      · rcases List.mem_cons.mp ht with h | h
        · refine ⟨c, rest, ?_, ?_, ?_⟩
          · rw [h]
          · rw [h]
            simp
          · rename_i hm
            exact hm
        · have hlen : rest.length ≤ fuel := by
            simp only [List.length_cons] at hle
            omega
          obtain ⟨x, suffix, hlex, hdrop, hnone⟩ :=
            ih rest (pos + 1) hlen t h hcls
          have hge := tokenizeGo_pos_ge fuel rest (pos + 1) t h
          refine ⟨x, suffix, hlex, ?_, hnone⟩
          have hshape : (c :: rest).drop (t.pos - pos) =
              rest.drop (t.pos - pos - 1) := by
            rw [show t.pos - pos = (t.pos - pos - 1) + 1 by omega]
            rfl
          rw [hshape, show t.pos - pos - 1 = t.pos - (pos + 1) by omega]
          exact hdrop

/-- (C3) Tokenization is total: for every input text the per-line token
streams reassemble the text exactly (so some token stream is always
produced, including for the empty string, whitespace-only strings and
strings of unrecognized characters), token positions are consistent with
the source, and every unrecognized character is folded into a single
one-character token of the engine's default class `'source'` (the error
bucket) whose position points at that character in its line. -/
theorem tokenize_total :
    (∀ text : List Char,
      joinLines ((splitLines text).map (fun l => lexConcat (tokenizeLine l)))
        = text) ∧
    (∀ line : List Char, posOk 0 (tokenizeLine line)) ∧
    (∀ (line : List Char) (t : Token), t ∈ tokenizeLine line →
      t.cls = "source" →
      ∃ (c : Char) (suffix : List Char), t.lexeme = [c] ∧
        line.drop t.pos = c :: suffix ∧ matchRules (c :: suffix) = none) := by
  refine ⟨fun text => ?_, fun line => ?_, fun line t ht hcls => ?_⟩
  · have hmap : (splitLines text).map (fun l => lexConcat (tokenizeLine l)) =
        splitLines text := by
      apply map_self
      intro l _
      exact tokenizeGo_concat l.length l 0 (Nat.le_refl _)
    rw [hmap, joinLines_splitLines]
  · exact tokenizeGo_posOk line.length line 0 (Nat.le_refl _)
  · have := tokenizeGo_source line.length line 0 (Nat.le_refl _) t ht hcls
    simpa using this

/-- Witness for `tokenize_total` on the line `?;` — `?` matches no rule
and becomes a one-character default token at position 0; whole-text
coverage is instantiated on a two-line text with an empty second line. -/
theorem tokenize_total_witness :
    joinLines ((splitLines ('?' :: ';' :: '\n' :: [])).map
      (fun l => lexConcat (tokenizeLine l))) = '?' :: ';' :: '\n' :: [] ∧
    (∃ (c : Char) (suffix : List Char),
      (Token.mk "source" 0 ['?']).lexeme = [c] ∧
      ('?' :: ';' :: []).drop (Token.mk "source" 0 ['?']).pos = c :: suffix ∧
      matchRules (c :: suffix) = none) := by
  constructor
  · exact tokenize_total.1 ('?' :: ';' :: '\n' :: [])
  · exact tokenize_total.2.2 ('?' :: ';' :: []) (Token.mk "source" 0 ['?'])
      (by decide) rfl


theorem pred_ne {p : Char → Bool} {c d : Char} (hc : p c = true)
    (hd : p d = false) : c ≠ d := by
  intro h
  rw [h, hd] at hc
  exact Bool.noConfusion hc

theorem mem_of_head? {l : List Char} {x : Char} (h : l.head? = some x) :
    x ∈ l := by
  cases l with
  | nil => exact Option.noConfusion h
  | cons a t =>
    injection h with h'
    rw [h']
    exact List.mem_cons_self _ _

theorem takeWhile_all {p : Char → Bool} {l : List Char}
    (h : ∀ x ∈ l, p x = true) : l.takeWhile p = l := by
  induction l with
  | nil => rfl
  | cons a t ih =>
    rw [List.takeWhile_cons, h a (List.mem_cons_self _ _)]
    rw [ih (fun x hx => h x (List.mem_cons_of_mem _ hx))]
    rfl

theorem takeWhile_append_run {p : Char → Bool} {a : List Char} {b : Char}
    {r : List Char} (ha : ∀ x ∈ a, p x = true) (hb : p b = false) :
    (a ++ b :: r).takeWhile p = a := by
  induction a with
  | nil =>
    rw [List.nil_append, List.takeWhile_cons, hb]
    rfl
  | cons x a ih =>
    rw [List.cons_append, List.takeWhile_cons, ha x (List.mem_cons_self _ _)]
    rw [ih (fun y hy => ha y (List.mem_cons_of_mem _ hy))]
    rfl

theorem tokenizeGo_nil (fuel pos : Nat) : tokenizeGo fuel [] pos = [] := by
  cases fuel <;> rfl

theorem matchComment_none {c : Char} {r : List Char} (h : c ≠ '/') :
    matchComment (c :: r) = none := by
  unfold matchComment
  rw [if_neg]
  intro htake
  rw [List.take_succ_cons] at htake
  injection htake with h1 _
  exact h h1

theorem matchString_none {c : Char} {r : List Char} (h : c ≠ '"') :
    matchString (c :: r) = none := by
  unfold matchString
  rw [if_neg]
  intro hh
  injection hh with h1
  exact h h1

theorem matchParens_none {c : Char} {r : List Char} (h1 : c ≠ '(')
    (h2 : c ≠ ')') : matchParens (c :: r) = none := by
  unfold matchParens
  rw [if_neg]
  rintro (hh | hh) <;> (injection hh with h3; first | exact h1 h3 | exact h2 h3)

theorem matchTransform_none {c : Char} {r : List Char} (h1 : c ≠ '=')
    (h2 : c ≠ '-') : matchTransform (c :: r) = none := by
  unfold matchTransform
  rw [if_neg]
  rintro (hh | hh) <;>
    (rw [List.take_succ_cons] at hh; injection hh with h3 _;
     first | exact h1 h3 | exact h2 h3)

theorem matchAssign_none {c : Char} {r : List Char} (h1 : c ≠ '=')
    (h2 : c ≠ ':') : matchAssign (c :: r) = none := by
  unfold matchAssign
  rw [if_neg, if_neg]
  · intro hh
    rw [List.take_succ_cons] at hh
    injection hh with h3 _
    exact h2 h3
  · intro hh
    injection hh with h3
    exact h1 h3

theorem matchOperator_none {c : Char} {r : List Char} (h1 : c ≠ '-')
    (h2 : c ≠ '+') (h3 : c ≠ '*') (h4 : c ≠ '/') (h5 : c ≠ '^')
    (h6 : c ≠ ';') : matchOperator (c :: r) = none := by
  unfold matchOperator
  rw [if_neg]
  intro hh
  simp only [List.head?_cons, List.mem_cons, List.not_mem_nil, or_false] at hh
  rcases hh with hh | hh | hh | hh | hh | hh <;>
    (injection hh with h7;
     first
     | exact h1 h7 | exact h2 h7 | exact h3 h7
     | exact h4 h7 | exact h5 h7 | exact h6 h7)

theorem matchWordList_none {ws : List (List Char)} {cs : List Char}
    (h : ∀ w ∈ ws, ¬(w.isPrefixOf cs = true ∧
      nonWordOrEnd ((cs.drop w.length).head?) = true)) :
    matchWordList ws cs = none := by
  unfold matchWordList
  rw [List.findSome?_eq_none_iff]
  intro w hw
  rw [if_neg (h w hw)]

theorem matchAnnot_none {cs : List Char}
    (h : ∀ w ∈ annotList, w.isPrefixOf cs = false) : matchAnnot cs = none := by
  unfold matchAnnot
  rw [List.findSome?_eq_none_iff]
  intro w hw
  rw [if_neg]
  rw [h w hw]
  exact Bool.noConfusion

theorem alpha_heads_not_pre {ws : List (List Char)}
    (hws : ∀ w ∈ ws, w.head?.map Char.isAlpha = some true) {c : Char}
    {r : List Char} (hc : c.isAlpha = false) :
    ∀ w ∈ ws, w.isPrefixOf (c :: r) = false := by
  intro w hw
  have h := hws w hw
  cases w with
  | nil => exact Option.noConfusion h
  | cons a t =>
    apply isPrefixOf_eq_false_of_no_pre
    intro hp
    have h1 := (List.cons_prefix_cons.mp hp).1
    rw [List.head?_cons, Option.map_some'] at h
    injection h with h2
    rw [h1, hc] at h2
    exact Bool.noConfusion h2

theorem matchColonLabel_none_no_colon {cs : List Char} (h : (':' : Char) ∉ cs) :
    matchColonLabel cs = none := by
  unfold matchColonLabel
  dsimp only
  rw [if_neg]
  rintro ⟨_, hcol⟩
  exact h (List.drop_subset _ _ (mem_of_head? hcol))

theorem tokenizeLine_single {cs : List Char} {cls : String}
    (h : matchRules cs = some (cls, cs.length)) (hne : cs ≠ []) :
    tokenizeLine cs = [⟨cls, 0, cs⟩] := by
  cases cs with
  | nil => exact absurd rfl hne
  | cons c rest =>
    rw [tokenizeLine, List.length_cons, tokenizeGo, h]
    dsimp only
    rw [show List.take (c :: rest).length (c :: rest) = c :: rest from
      List.take_length _]
    rw [show List.drop (c :: rest).length (c :: rest) = [] from
      List.drop_length _]
    rw [tokenizeGo_nil]

/-- The declared-kind keyword list of rule 10's `cases`. -/
def caseKeys : List (List Char) :=
  ["const".toList, "unit".toList, "var".toList, "species".toList,
   "function".toList, "model".toList, "end".toList, "compartment".toList]

theorem identClass_other {w : List Char} (h : w ∉ caseKeys) :
    identClass w = "other" := by
  unfold identClass
  split_ifs with h1 h2 h3 h4 h5 h6 h7 h8 <;>
    first
    | rfl
    | (exfalso; apply h;
       first
       | (rw [h1]; decide) | (rw [h2]; decide) | (rw [h3]; decide)
       | (rw [h4]; decide) | (rw [h5]; decide) | (rw [h6]; decide)
       | (rw [h7]; decide) | (rw [h8]; decide))


theorem matchWordList_none_of_word {ws : List (List Char)} {w : List Char}
    (hall : ∀ x ∈ w, wordChar x = true) (hnot : w ∉ ws) :
    matchWordList ws w = none := by
  apply matchWordList_none
  intro u hu
  rintro ⟨hp, hb⟩
  have hpre : u <+: w := List.isPrefixOf_iff_prefix.mp hp
  rcases Nat.lt_or_ge u.length w.length with hlt | hge
  · cases hx : (w.drop u.length).head? with
    | none =>
      have hnil := List.head?_eq_none_iff.mp hx
      have := congrArg List.length hnil
      rw [List.length_drop] at this
      simp only [List.length_nil] at this
      omega
    | some x =>
      have hmem : x ∈ w := List.drop_subset _ _ (mem_of_head? hx)
      rw [hx] at hb
      simp only [nonWordOrEnd] at hb
      rw [hall x hmem] at hb
      exact absurd hb (by decide)
  · exact hnot ((List.IsPrefix.eq_of_length_le hpre hge) ▸ hu)

theorem matchWordList_none_of_no_pre {ws : List (List Char)} {cs : List Char}
    (h : ∀ w ∈ ws, w.isPrefixOf cs = false) : matchWordList ws cs = none := by
  apply matchWordList_none
  intro w hw
  rintro ⟨hp, _⟩
  rw [h w hw] at hp
  exact Bool.noConfusion hp

theorem isDigit_eq_false_of_isAlpha {c : Char} (h : c.isAlpha = true) :
    c.isDigit = false := by
  cases hd : c.isDigit with
  | false => rfl
  | true =>
    exfalso
    simp only [Char.isDigit, Bool.and_eq_true, decide_eq_true_eq] at hd
    simp only [Char.isAlpha, Char.isUpper, Char.isLower, Bool.or_eq_true,
      Bool.and_eq_true, decide_eq_true_eq] at h
    rcases h with ⟨h1, _⟩ | ⟨h1, _⟩ <;>
      exact absurd (UInt32.le_trans h1 hd.2) (by decide)

theorem isAlpha_eq_false_of_isDigit {c : Char} (h : c.isDigit = true) :
    c.isAlpha = false := by
  cases ha : c.isAlpha with
  | false => rfl
  | true => rw [isDigit_eq_false_of_isAlpha ha] at h; exact Bool.noConfusion h

theorem wordChar_of_isAlpha {c : Char} (h : c.isAlpha = true) :
    wordChar c = true := by
  unfold wordChar
  rw [h]
  rfl

theorem wordChar_of_isDigit {c : Char} (h : c.isDigit = true) :
    wordChar c = true := by
  unfold wordChar
  rw [h]
  simp

theorem matchIdent_none_not_alpha {c : Char} {rest : List Char}
    (h1 : c ≠ '@') (h2 : c.isAlpha = false) :
    matchIdent (c :: rest) = none := by
  have hat : ¬((c :: rest).head? = some '@') := by
    rw [List.head?_cons]
    intro h
    injection h with h'
    exact h1 h'
  unfold matchIdent
  dsimp only
  rw [if_neg hat, List.drop_zero, List.head?_cons]
  dsimp only
  rw [if_neg]
  intro hh
  rw [h2] at hh
  exact Bool.noConfusion hh

theorem matchIdent_full {c : Char} {rest : List Char} (hc : c.isAlpha = true)
    (hrest : ∀ x ∈ rest, wordDollarChar x = true) :
    matchIdent (c :: rest) = some (identClass (c :: rest), (c :: rest).length) := by
  have hat : ¬((c :: rest).head? = some '@') := by
    rw [List.head?_cons]
    intro h
    injection h with h'
    rw [h'] at hc
    exact absurd hc (by decide)
  unfold matchIdent
  dsimp only
  rw [if_neg hat, List.drop_zero, List.head?_cons]
  dsimp only
  rw [if_pos hc]
  rw [show (c :: rest).drop (0 + 1) = rest from rfl]
  rw [takeWhile_all hrest]
  rw [show 0 + 1 + rest.length = (c :: rest).length from by
    rw [List.length_cons]; omega]
  rw [List.take_length _]

theorem matchRadix_none_head {c : Char} {rest : List Char} (h : c ≠ '0') :
    matchRadix (c :: rest) = none := by
  unfold matchRadix
  rw [List.head?_cons, if_neg]
  intro hh
  injection hh with h'
  exact h h'

theorem matchNumber_none_alpha {c : Char} {rest : List Char}
    (hc : c.isAlpha = true) : matchNumber (c :: rest) = none := by
  have hd := isDigit_eq_false_of_isAlpha hc
  have ht : (c :: rest).takeWhile Char.isDigit = [] := by
    rw [List.takeWhile_cons, hd]
    rfl
  unfold matchNumber
  rw [List.head?_cons]
  dsimp only
  rw [if_pos (wordChar_of_isAlpha hc), ht]
  rw [if_neg (by decide : ¬(1 ≤ ([] : List Char).length))]
  rw [matchRadix_none_head (pred_ne hc (by decide))]

theorem matchRules_ident {c : Char} {rest : List Char} (hc : c.isAlpha = true)
    (hrest : ∀ x ∈ rest, wordChar x = true)
    (hkw : (c :: rest) ∉ kwList)
    (hann : ∀ p ∈ annotList, p.isPrefixOf (c :: rest) = false) :
    matchRules (c :: rest) = some (identClass (c :: rest), (c :: rest).length) := by
  have hall : ∀ x ∈ c :: rest, wordChar x = true := by
    intro x hx
    rcases List.mem_cons.mp hx with rfl | hx
    · exact wordChar_of_isAlpha hc
    · exact hrest x hx
  have hcol : (':' : Char) ∉ c :: rest := by
    intro hm
    exact absurd (hall ':' hm) (by decide)
  have hdollar : ∀ x ∈ rest, wordDollarChar x = true := by
    intro x hx
    unfold wordDollarChar
    rw [hrest x hx]
    rfl
  unfold matchRules
  rw [matchComment_none (pred_ne hc (by decide)),
      matchString_none (pred_ne hc (by decide)),
      matchParens_none (pred_ne hc (by decide)) (pred_ne hc (by decide)),
      matchTransform_none (pred_ne hc (by decide)) (pred_ne hc (by decide)),
      matchAssign_none (pred_ne hc (by decide)) (pred_ne hc (by decide)),
      matchOperator_none (pred_ne hc (by decide)) (pred_ne hc (by decide))
        (pred_ne hc (by decide)) (pred_ne hc (by decide))
        (pred_ne hc (by decide)) (pred_ne hc (by decide))]
  rw [show matchKw (c :: rest) = none from
    matchWordList_none_of_word hall hkw]
  rw [matchAnnot_none hann]
  rw [matchColonLabel_none_no_colon hcol]
  rw [matchIdent_full hc hdollar]

/-- C7 (corrected): the four keywords and the declared-kind keywords are
classified as stated, and identifiers matching no keyword class become
single generic-identifier (`'other'`) tokens; but the annotation alternation,
lacking word boundaries and trying `is` before its longer siblings, splits
`isVersionOf` and `isDerivedFrom` into an `is` annotation token followed by
a generic identifier, so only the other listed predicates tokenize whole. -/
theorem keyword_classification (c : Char) (rest : List Char)
    (hc : c.isAlpha = true) (hrest : ∀ x ∈ rest, wordChar x = true)
    (hkw : (c :: rest) ∉ kwList) (hcase : (c :: rest) ∉ caseKeys)
    (hann : ∀ p ∈ annotList, p.isPrefixOf (c :: rest) = false) :
    (∀ w ∈ kwList, tokenizeLine w = [⟨"keywords", 0, w⟩]) ∧
    (∀ w ∈ (["identity".toList, "hasPart".toList, "encodes".toList,
        "occursIn".toList, "hasProperty".toList, "hasTaxon".toList,
        "hasInstance".toList] : List (List Char)),
      tokenizeLine w = [⟨"annotation", 0, w⟩]) ∧
    tokenizeLine ("isVersionOf".toList) =
      [⟨"annotation", 0, "is".toList⟩, ⟨"other", 2, "VersionOf".toList⟩] ∧
    tokenizeLine ("isDerivedFrom".toList) =
      [⟨"annotation", 0, "is".toList⟩, ⟨"other", 2, "DerivedFrom".toList⟩] ∧
    (∀ w ∈ caseKeys, tokenizeLine w = [⟨String.mk w, 0, w⟩]) ∧
    tokenizeLine (c :: rest) = [⟨"other", 0, c :: rest⟩] := by
  refine ⟨by decide, by decide, by decide, by decide, by decide, ?_⟩
  have h := matchRules_ident hc hrest hkw hann
  rw [identClass_other hcase] at h
  exact tokenizeLine_single h (List.cons_ne_nil c rest)

/-- C7 counterexample: `isVersionOf` is not a single annotation-predicate
token; the tokenizer emits `is` as the annotation token and `VersionOf` as a
generic identifier. -/
theorem keyword_classification_cex :
    tokenizeLine ("isVersionOf".toList) =
      [⟨"annotation", 0, "is".toList⟩, ⟨"other", 2, "VersionOf".toList⟩] ∧
    ¬ tokenizeLine ("isVersionOf".toList) =
      [⟨"annotation", 0, "isVersionOf".toList⟩] := by decide

/-- Witness for C7 at the generic identifier `myVar`. -/
theorem keyword_classification_witness :
    tokenizeLine ("myVar".toList) = [⟨"other", 0, "myVar".toList⟩] :=
  (keyword_classification 'm' ("yVar".toList) (by decide) (by decide)
    (by decide) (by decide) (by decide)).2.2.2.2.2

theorem tokenizeGo_step_none {c : Char} {rest : List Char} (fuel pos : Nat)
    (h : matchRules (c :: rest) = none) :
    tokenizeGo (fuel + 1) (c :: rest) pos =
      ⟨"source", pos, [c]⟩ :: tokenizeGo fuel rest (pos + 1) := by
  rw [tokenizeGo, h]

theorem tokenizeGo_step_some {c : Char} {rest : List Char} {cls : String}
    {n : Nat} (fuel pos : Nat) (h : matchRules (c :: rest) = some (cls, n)) :
    tokenizeGo (fuel + 1) (c :: rest) pos =
      ⟨cls, pos, (c :: rest).take n⟩ ::
        tokenizeGo fuel ((c :: rest).drop n) (pos + n) := by
  rw [tokenizeGo, h]

theorem tokenizeGo_single {cs : List Char} {cls : String} (fuel pos : Nat)
    (h : matchRules cs = some (cls, cs.length)) (hne : cs ≠ []) :
    tokenizeGo (fuel + 1) cs pos = [⟨cls, pos, cs⟩] := by
  cases cs with
  | nil => exact absurd rfl hne
  | cons c rest =>
    rw [tokenizeGo, h]
    dsimp only
    rw [show List.take (c :: rest).length (c :: rest) = c :: rest from
      List.take_length _]
    rw [show List.drop (c :: rest).length (c :: rest) = [] from
      List.drop_length _]
    rw [tokenizeGo_nil]

theorem matchColonLabel_none_head {c : Char} {rest : List Char}
    (h : wordChar c = false) : matchColonLabel (c :: rest) = none := by
  have ht : (c :: rest).takeWhile wordChar = [] := by
    rw [List.takeWhile_cons, h]
    rfl
  unfold matchColonLabel
  dsimp only
  rw [ht]
  rw [if_neg]
  rintro ⟨h1, _⟩
  exact absurd h1 (by decide)

theorem matchNumber_none_head {c : Char} {rest : List Char}
    (h : wordChar c = false) : matchNumber (c :: rest) = none := by
  unfold matchNumber
  rw [List.head?_cons]
  dsimp only
  rw [if_neg]
  intro hh
  rw [h] at hh
  exact Bool.noConfusion hh

theorem annotList_heads :
    ∀ w ∈ annotList, w.head?.map Char.isAlpha = some true := by decide

theorem kwList_heads :
    ∀ w ∈ kwList, w.head?.map Char.isAlpha = some true := by decide

theorem matchRules_dot (rest : List Char) : matchRules ('.' :: rest) = none := by
  unfold matchRules
  rw [matchComment_none (by decide), matchString_none (by decide),
      matchParens_none (by decide) (by decide),
      matchTransform_none (by decide) (by decide),
      matchAssign_none (by decide) (by decide),
      matchOperator_none (by decide) (by decide) (by decide) (by decide)
        (by decide) (by decide)]
  rw [show matchKw ('.' :: rest) = none from
    matchWordList_none_of_no_pre (alpha_heads_not_pre kwList_heads (by decide))]
  rw [matchAnnot_none (alpha_heads_not_pre annotList_heads (by decide))]
  rw [matchColonLabel_none_head (by decide)]
  rw [matchIdent_none_not_alpha (by decide) (by decide)]
  rw [matchNumber_none_head (by decide)]

theorem matchRules_number {c : Char} {rest : List Char} (hc : c.isDigit = true)
    (hcol : (':' : Char) ∉ c :: rest) {n : Nat}
    (hn : matchNumber (c :: rest) = some n) :
    matchRules (c :: rest) = some ("number", n) := by
  have ha := isAlpha_eq_false_of_isDigit hc
  unfold matchRules
  rw [matchComment_none (pred_ne hc (by decide)),
      matchString_none (pred_ne hc (by decide)),
      matchParens_none (pred_ne hc (by decide)) (pred_ne hc (by decide)),
      matchTransform_none (pred_ne hc (by decide)) (pred_ne hc (by decide)),
      matchAssign_none (pred_ne hc (by decide)) (pred_ne hc (by decide)),
      matchOperator_none (pred_ne hc (by decide)) (pred_ne hc (by decide))
        (pred_ne hc (by decide)) (pred_ne hc (by decide))
        (pred_ne hc (by decide)) (pred_ne hc (by decide))]
  rw [show matchKw (c :: rest) = none from
    matchWordList_none_of_no_pre (alpha_heads_not_pre kwList_heads ha)]
  rw [matchAnnot_none (alpha_heads_not_pre annotList_heads ha)]
  rw [matchColonLabel_none_no_colon hcol]
  rw [matchIdent_none_not_alpha (pred_ne hc (by decide)) ha]
  rw [hn]

theorem matchRadix_none_of_chars {cs : List Char}
    (h : ∀ y ∈ cs, y ≠ 'x' ∧ y ≠ 'X' ∧ y ≠ 'o' ∧ y ≠ 'b') :
    matchRadix cs = none := by
  unfold matchRadix
  split_ifs with h0
  · cases hy : (cs.drop 1).head? with
    | none => rfl
    | some y =>
      obtain ⟨h1, h2, h3, h4⟩ := h y (List.drop_subset _ _ (mem_of_head? hy))
      dsimp only
      rw [if_neg, if_neg, if_neg]
      · intro he
        exact h4 he
      · intro he
        exact h3 he
      · rintro (he | he)
        · exact h1 he
        · exact h2 he
  · rfl

theorem matchDecimal_at_end (cs : List Char) :
    matchDecimal cs cs.length = some cs.length := by
  unfold matchDecimal
  rw [List.drop_length]
  rw [if_neg (fun hh => Option.noConfusion hh)]
  exact if_pos rfl

theorem matchDecimal_at_word {cs : List Char} {d : Nat} {y : Char}
    (hy : (cs.drop d).head? = some y) (hdot : y ≠ '.')
    (hw : wordChar y = true) : matchDecimal cs d = none := by
  unfold matchDecimal
  rw [hy]
  rw [if_neg (fun hh => hdot (Option.some.inj hh))]
  have hb : ¬(nonWordOrEnd (some y) = true) := by
    simp only [nonWordOrEnd]
    rw [hw]
    decide
  rw [if_neg hb]

theorem matchDecimal_trailing_dot (ds : List Char) :
    matchDecimal (ds ++ ['.']) ds.length = some ds.length := by
  have h2 : (ds ++ ['.']).drop (ds.length + 1) = ([] : List Char) := by
    rw [← List.drop_drop, List.drop_left]
    rfl
  unfold matchDecimal
  rw [List.drop_left]
  rw [show (['.'] : List Char).head? = some '.' from rfl]
  rw [if_pos rfl, h2]
  rw [if_neg (by decide : ¬(1 ≤ (([] : List Char).takeWhile
    Char.isDigit).length))]
  rw [if_neg (by decide : ¬(wordAt (([] : List Char).head?) = true))]

theorem matchNumber_int {ds : List Char} (hne : ds ≠ [])
    (hd : ∀ x ∈ ds, Char.isDigit x = true) :
    matchNumber ds = some ds.length := by
  cases ds with
  | nil => exact absurd rfl hne
  | cons c rest =>
    have hc : c.isDigit = true := hd c (List.mem_cons_self _ _)
    unfold matchNumber
    rw [List.head?_cons]
    dsimp only
    rw [if_pos (wordChar_of_isDigit hc), takeWhile_all hd]
    rw [if_pos (show 1 ≤ (c :: rest).length from
      List.length_pos.mpr (List.cons_ne_nil c rest))]
    rw [matchDecimal_at_end]

theorem matchDecimal_dec {ds fs : List Char} (hfne : fs ≠ [])
    (hf : ∀ x ∈ fs, Char.isDigit x = true) :
    matchDecimal (ds ++ '.' :: fs) ds.length =
      some (ds ++ '.' :: fs).length := by
  have h1 : (ds ++ '.' :: fs).drop ds.length = '.' :: fs := List.drop_left ds _
  have h2 : (ds ++ '.' :: fs).drop (ds.length + 1) = fs := by
    rw [← List.drop_drop, h1]
    rfl
  have hlen : ds.length + 1 + fs.length = (ds ++ '.' :: fs).length := by
    rw [List.length_append, List.length_cons]
    omega
  unfold matchDecimal
  rw [h1, List.head?_cons, if_pos rfl, h2, takeWhile_all hf]
  rw [if_pos (show 1 ≤ fs.length from List.length_pos.mpr hfne)]
  rw [hlen, List.drop_length]
  exact if_pos rfl

theorem matchNumber_dec {ds fs : List Char} (hdne : ds ≠ []) (hfne : fs ≠ [])
    (hd : ∀ x ∈ ds, Char.isDigit x = true)
    (hf : ∀ x ∈ fs, Char.isDigit x = true) :
    matchNumber (ds ++ '.' :: fs) = some (ds ++ '.' :: fs).length := by
  cases ds with
  | nil => exact absurd rfl hdne
  | cons c rest =>
    have hc : c.isDigit = true := hd c (List.mem_cons_self _ _)
    have ht : ((c :: rest) ++ '.' :: fs).takeWhile Char.isDigit = c :: rest :=
      takeWhile_append_run hd (by decide)
    unfold matchNumber
    rw [List.cons_append, List.head?_cons]
    dsimp only
    rw [if_pos (wordChar_of_isDigit hc)]
    rw [← List.cons_append, ht]
    rw [if_pos (show 1 ≤ (c :: rest).length from
      List.length_pos.mpr (List.cons_ne_nil c rest))]
    rw [matchDecimal_dec hfne hf]

theorem matchNumber_trailing_dot {ds : List Char} (hne : ds ≠ [])
    (hd : ∀ x ∈ ds, Char.isDigit x = true) :
    matchNumber (ds ++ ['.']) = some ds.length := by
  cases ds with
  | nil => exact absurd rfl hne
  | cons c rest =>
    have hc : c.isDigit = true := hd c (List.mem_cons_self _ _)
    have ht : ((c :: rest) ++ ['.']).takeWhile Char.isDigit = c :: rest :=
      takeWhile_append_run hd (by decide)
    unfold matchNumber
    rw [List.cons_append, List.head?_cons]
    dsimp only
    rw [if_pos (wordChar_of_isDigit hc)]
    rw [← List.cons_append, ht]
    rw [if_pos (show 1 ≤ (c :: rest).length from
      List.length_pos.mpr (List.cons_ne_nil c rest))]
    rw [matchDecimal_trailing_dot]

theorem radixTail_full {x : Char} {hs : List Char} {p : Char → Bool}
    (hne : hs ≠ []) (hp : ∀ y ∈ hs, p y = true) :
    radixTail ('0' :: x :: hs) p = some (2 + hs.length) := by
  unfold radixTail
  dsimp only
  rw [show ('0' :: x :: hs).drop 2 = hs from rfl, takeWhile_all hp]
  rw [Nat.add_comm 2 hs.length]
  rw [show ('0' :: x :: hs).drop (hs.length + 2) = hs.drop hs.length from rfl]
  rw [List.drop_length]
  rw [if_pos ⟨show 1 ≤ hs.length from List.length_pos.mpr hne, rfl⟩]

theorem matchRadix_hex {x : Char} {hs : List Char} (hx : x = 'x' ∨ x = 'X')
    (hne : hs ≠ []) (hh : ∀ y ∈ hs, hexDigit y = true) :
    matchRadix ('0' :: x :: hs) = some (2 + hs.length) := by
  unfold matchRadix
  rw [List.head?_cons, if_pos rfl]
  rw [show (('0' :: x :: hs).drop 1).head? = some x from rfl]
  dsimp only
  rw [if_pos hx]
  exact radixTail_full hne hh

theorem matchRadix_oct {os : List Char} (hne : os ≠ [])
    (ho : ∀ y ∈ os, octDigit y = true) :
    matchRadix ('0' :: 'o' :: os) = some (2 + os.length) := by
  unfold matchRadix
  rw [List.head?_cons, if_pos rfl]
  rw [show (('0' :: 'o' :: os).drop 1).head? = some 'o' from rfl]
  dsimp only
  rw [if_neg (by decide), if_pos rfl]
  exact radixTail_full hne ho

theorem matchRadix_bin {bs : List Char} (hne : bs ≠ [])
    (hb : ∀ y ∈ bs, binDigit y = true) :
    matchRadix ('0' :: 'b' :: bs) = some (2 + bs.length) := by
  unfold matchRadix
  rw [List.head?_cons, if_pos rfl]
  rw [show (('0' :: 'b' :: bs).drop 1).head? = some 'b' from rfl]
  dsimp only
  rw [if_neg (by decide), if_neg (by decide), if_pos rfl]
  exact radixTail_full hne hb

theorem matchNumber_hex {x : Char} {hs : List Char} (hx : x = 'x' ∨ x = 'X')
    (hne : hs ≠ []) (hh : ∀ y ∈ hs, hexDigit y = true) :
    matchNumber ('0' :: x :: hs) = some (2 + hs.length) := by
  have hxd : Char.isDigit x = false := by
    rcases hx with rfl | rfl <;> decide
  have hxw : wordChar x = true := by
    rcases hx with rfl | rfl <;> decide
  have hxdot : x ≠ '.' := by
    rcases hx with rfl | rfl <;> decide
  have ht : ('0' :: x :: hs).takeWhile Char.isDigit = ['0'] :=
    takeWhile_append_run (a := ['0']) (by decide) hxd
  unfold matchNumber
  rw [List.head?_cons]
  dsimp only
  rw [if_pos (by decide : wordChar '0' = true), ht]
  rw [show (['0'] : List Char).length = 1 from rfl]
  rw [if_pos (by decide : (1 : Nat) ≤ 1)]
  rw [matchDecimal_at_word
    (show (('0' :: x :: hs).drop 1).head? = some x from rfl) hxdot hxw]
  rw [matchRadix_hex hx hne hh]

theorem matchNumber_oct {os : List Char} (hne : os ≠ [])
    (ho : ∀ y ∈ os, octDigit y = true) :
    matchNumber ('0' :: 'o' :: os) = some (2 + os.length) := by
  have ht : ('0' :: 'o' :: os).takeWhile Char.isDigit = ['0'] :=
    takeWhile_append_run (a := ['0']) (by decide) (by decide)
  unfold matchNumber
  rw [List.head?_cons]
  dsimp only
  rw [if_pos (by decide : wordChar '0' = true), ht]
  rw [show (['0'] : List Char).length = 1 from rfl]
  rw [if_pos (by decide : (1 : Nat) ≤ 1)]
  rw [matchDecimal_at_word
    (show (('0' :: 'o' :: os).drop 1).head? = some 'o' from rfl) (by decide)
    (by decide)]
  rw [matchRadix_oct hne ho]

theorem matchNumber_bin {bs : List Char} (hne : bs ≠ [])
    (hb : ∀ y ∈ bs, binDigit y = true) :
    matchNumber ('0' :: 'b' :: bs) = some (2 + bs.length) := by
  have ht : ('0' :: 'b' :: bs).takeWhile Char.isDigit = ['0'] :=
    takeWhile_append_run (a := ['0']) (by decide) (by decide)
  unfold matchNumber
  rw [List.head?_cons]
  dsimp only
  rw [if_pos (by decide : wordChar '0' = true), ht]
  rw [show (['0'] : List Char).length = 1 from rfl]
  rw [if_pos (by decide : (1 : Nat) ≤ 1)]
  rw [matchDecimal_at_word
    (show (('0' :: 'b' :: bs).drop 1).head? = some 'b' from rfl) (by decide)
    (by decide)]
  rw [matchRadix_bin hne hb]

theorem matchExpTail_full {cs xs : List Char} {k : Nat}
    (hdrop : cs.drop k = xs) (hne : xs ≠ [])
    (hx : ∀ y ∈ xs, Char.isDigit y = true)
    (hlen : k + xs.length = cs.length) :
    matchExpTail cs k = some cs.length := by
  unfold matchExpTail
  rw [hdrop, takeWhile_all hx, hlen, List.drop_length]
  rw [if_pos (show 1 ≤ xs.length from List.length_pos.mpr hne)]
  exact if_pos rfl

theorem matchNumber_of_parts {ds tail : List Char} (hdne : ds ≠ [])
    (hd : ∀ x ∈ ds, Char.isDigit x = true)
    (htw : (ds ++ tail).takeWhile Char.isDigit = ds)
    (hdec : matchDecimal (ds ++ tail) ds.length = none)
    (hrad : matchRadix (ds ++ tail) = none)
    (hexp : matchExpSuffix (ds ++ tail) ds.length = some (ds ++ tail).length) :
    matchNumber (ds ++ tail) = some (ds ++ tail).length := by
  cases ds with
  | nil => exact absurd rfl hdne
  | cons c rest =>
    have hc : c.isDigit = true := hd c (List.mem_cons_self _ _)
    unfold matchNumber
    rw [List.cons_append, List.head?_cons]
    dsimp only
    rw [if_pos (wordChar_of_isDigit hc)]
    rw [← List.cons_append, htw]
    rw [if_pos (show 1 ≤ (c :: rest).length from
      List.length_pos.mpr (List.cons_ne_nil c rest))]
    rw [hdec, hrad, hexp]

theorem matchNumber_exp {ds xs sgn : List Char} {e : Char}
    (hdne : ds ≠ []) (hxne : xs ≠ [])
    (hd : ∀ y ∈ ds, Char.isDigit y = true)
    (hx : ∀ y ∈ xs, Char.isDigit y = true)
    (hee : e = 'e' ∨ e = 'E')
    (hsgn : sgn = [] ∨ sgn = ['+'] ∨ sgn = ['-']) :
    matchNumber (ds ++ e :: (sgn ++ xs)) =
      some (ds ++ e :: (sgn ++ xs)).length := by
  have hed : Char.isDigit e = false := by
    rcases hee with rfl | rfl <;> decide
  have hew : wordChar e = true := by
    rcases hee with rfl | rfl <;> decide
  have hedot : e ≠ '.' := by
    rcases hee with rfl | rfl <;> decide
  have hchars : ∀ y ∈ ds ++ e :: (sgn ++ xs),
      y ≠ 'x' ∧ y ≠ 'X' ∧ y ≠ 'o' ∧ y ≠ 'b' := by
    intro y hy
    rcases List.mem_append.mp hy with hy | hy
    · have hyd := hd y hy
      exact ⟨pred_ne hyd (by decide), pred_ne hyd (by decide),
        pred_ne hyd (by decide), pred_ne hyd (by decide)⟩
    · rcases List.mem_cons.mp hy with rfl | hy
      · rcases hee with rfl | rfl <;>
          exact ⟨by decide, by decide, by decide, by decide⟩
      · rcases List.mem_append.mp hy with hy | hy
        · rcases hsgn with rfl | rfl | rfl
          · exact absurd hy (List.not_mem_nil y)
          · simp only [List.mem_cons, List.not_mem_nil, or_false] at hy
            subst hy
            exact ⟨by decide, by decide, by decide, by decide⟩
          · simp only [List.mem_cons, List.not_mem_nil, or_false] at hy
            subst hy
            exact ⟨by decide, by decide, by decide, by decide⟩
        · have hyd := hx y hy
          exact ⟨pred_ne hyd (by decide), pred_ne hyd (by decide),
            pred_ne hyd (by decide), pred_ne hyd (by decide)⟩
  have hd0 : (ds ++ e :: (sgn ++ xs)).drop ds.length = e :: (sgn ++ xs) :=
    List.drop_left ds _
  apply matchNumber_of_parts hdne hd
  · exact takeWhile_append_run hd hed
  · exact matchDecimal_at_word
      (show ((ds ++ e :: (sgn ++ xs)).drop ds.length).head? = some e from by
        rw [hd0, List.head?_cons]) hedot hew
  · exact matchRadix_none_of_chars hchars
  · have hd1 : (ds ++ e :: (sgn ++ xs)).drop (ds.length + 1) = sgn ++ xs := by
      rw [← List.drop_drop, hd0]
      rfl
    unfold matchExpSuffix
    rw [hd0, List.head?_cons]
    dsimp only
    rw [if_pos hee, hd1]
    rcases hsgn with rfl | rfl | rfl
    · rw [List.nil_append]
      have hns : ¬(xs.head? = some '+' ∨ xs.head? = some '-') := by
        rintro (hh | hh)
        · exact absurd (hx '+' (mem_of_head? hh)) (by decide)
        · exact absurd (hx '-' (mem_of_head? hh)) (by decide)
      rw [if_neg hns]
      exact matchExpTail_full
        (show (ds ++ e :: xs).drop (ds.length + 1) = xs from by
          rw [← List.drop_drop, List.drop_left]
          rfl) hxne hx
        (by simp only [List.length_append, List.length_cons]; omega)
    · rw [List.cons_append, List.nil_append]
      rw [if_pos (Or.inl (show ('+' :: xs).head? = some '+' from rfl))]
      exact matchExpTail_full
        (show (ds ++ e :: '+' :: xs).drop (ds.length + 1 + 1) = xs from by
          rw [← List.drop_drop, ← List.drop_drop, List.drop_left]
          rfl) hxne hx
        (by simp only [List.length_append, List.length_cons]; omega)
    · rw [List.cons_append, List.nil_append]
      rw [if_pos (Or.inr (show ('-' :: xs).head? = some '-' from rfl))]
      exact matchExpTail_full
        (show (ds ++ e :: '-' :: xs).drop (ds.length + 1 + 1) = xs from by
          rw [← List.drop_drop, ← List.drop_drop, List.drop_left]
          rfl) hxne hx
        (by simp only [List.length_append, List.length_cons]; omega)

theorem tokenizeLine_number {c : Char} {rest : List Char}
    (hc : Char.isDigit c = true) (hcol : (':' : Char) ∉ c :: rest)
    (hn : matchNumber (c :: rest) = some ((c :: rest).length)) :
    tokenizeLine (c :: rest) = [⟨"number", 0, c :: rest⟩] :=
  tokenizeLine_single (matchRules_number hc hcol hn) (List.cons_ne_nil c rest)

/-- C8 (corrected): integer, digit-led decimal, hex, octal, binary and
exponent literals are single whole-line number tokens; but the `\.\d+`
alternative is dead behind the regex's leading `\b`, so a leading-dot
decimal like `.5` splits into an unmatched `.` and the integer part, and a
trailing-dot literal like `3.` splits into the integer part and an
unmatched `.`. -/
theorem numeric_literals (ds fs hs os bs xs sgn : List Char) (x e : Char)
    (hdne : ds ≠ []) (hfne : fs ≠ []) (hhne : hs ≠ []) (hone : os ≠ [])
    (hbne : bs ≠ []) (hxne : xs ≠ [])
    (hd : ∀ y ∈ ds, Char.isDigit y = true)
    (hf : ∀ y ∈ fs, Char.isDigit y = true)
    (hh : ∀ y ∈ hs, hexDigit y = true)
    (ho : ∀ y ∈ os, octDigit y = true)
    (hb : ∀ y ∈ bs, binDigit y = true)
    (hxd : ∀ y ∈ xs, Char.isDigit y = true)
    (hxc : x = 'x' ∨ x = 'X') (hec : e = 'e' ∨ e = 'E')
    (hsgn : sgn = [] ∨ sgn = ['+'] ∨ sgn = ['-']) :
    tokenizeLine ds = [⟨"number", 0, ds⟩] ∧
    tokenizeLine (ds ++ '.' :: fs) = [⟨"number", 0, ds ++ '.' :: fs⟩] ∧
    tokenizeLine ('0' :: x :: hs) = [⟨"number", 0, '0' :: x :: hs⟩] ∧
    tokenizeLine ('0' :: 'o' :: os) = [⟨"number", 0, '0' :: 'o' :: os⟩] ∧
    tokenizeLine ('0' :: 'b' :: bs) = [⟨"number", 0, '0' :: 'b' :: bs⟩] ∧
    tokenizeLine (ds ++ e :: (sgn ++ xs)) =
      [⟨"number", 0, ds ++ e :: (sgn ++ xs)⟩] ∧
    tokenizeLine ('.' :: fs) =
      [⟨"source", 0, ['.']⟩, ⟨"number", 1, fs⟩] ∧
    tokenizeLine (ds ++ ['.']) =
      [⟨"number", 0, ds⟩, ⟨"source", ds.length, ['.']⟩] := by
  refine ⟨?_, ?_, ?_, ?_, ?_, ?_, ?_, ?_⟩
  · cases ds with
    | nil => exact absurd rfl hdne
    | cons c rest =>
      have hcol : (':' : Char) ∉ c :: rest := by
        intro hm
        exact absurd (hd ':' hm) (by decide)
      exact tokenizeLine_number (hd c (List.mem_cons_self _ _)) hcol
        (matchNumber_int (List.cons_ne_nil c rest) hd)
  · cases ds with
    | nil => exact absurd rfl hdne
    | cons c rest =>
      have hcol : (':' : Char) ∉ (c :: rest) ++ '.' :: fs := by
        intro hm
        rcases List.mem_append.mp hm with h | h
        · exact absurd (hd ':' h) (by decide)
        · rcases List.mem_cons.mp h with h | h
          · exact absurd h (by decide)
          · exact absurd (hf ':' h) (by decide)
      exact tokenizeLine_number (hd c (List.mem_cons_self _ _)) hcol
        (matchNumber_dec (List.cons_ne_nil c rest) hfne hd hf)
  · have hcol : (':' : Char) ∉ '0' :: x :: hs := by
      intro hm
      rcases List.mem_cons.mp hm with h | hm
      · exact absurd h (by decide)
      · rcases List.mem_cons.mp hm with h | hm
        · rw [← h] at hxc
          rcases hxc with h' | h' <;> exact absurd h' (by decide)
        · exact absurd (hh ':' hm) (by decide)
    have hn := matchNumber_hex hxc hhne hh
    rw [show 2 + hs.length = ('0' :: x :: hs).length from by
      rw [List.length_cons, List.length_cons]; omega] at hn
    exact tokenizeLine_number (by decide) hcol hn
  · have hcol : (':' : Char) ∉ '0' :: 'o' :: os := by
      intro hm
      rcases List.mem_cons.mp hm with h | hm
      · exact absurd h (by decide)
      · rcases List.mem_cons.mp hm with h | hm
        · exact absurd h (by decide)
        · exact absurd (ho ':' hm) (by decide)
    have hn := matchRadix_oct hone ho
    have hn2 := matchNumber_oct hone ho
    rw [show 2 + os.length = ('0' :: 'o' :: os).length from by
      rw [List.length_cons, List.length_cons]; omega] at hn2
    exact tokenizeLine_number (by decide) hcol hn2
  · have hcol : (':' : Char) ∉ '0' :: 'b' :: bs := by
      intro hm
      rcases List.mem_cons.mp hm with h | hm
      · exact absurd h (by decide)
      · rcases List.mem_cons.mp hm with h | hm
        · exact absurd h (by decide)
        · exact absurd (hb ':' hm) (by decide)
    have hn2 := matchNumber_bin hbne hb
    rw [show 2 + bs.length = ('0' :: 'b' :: bs).length from by
      rw [List.length_cons, List.length_cons]; omega] at hn2
    exact tokenizeLine_number (by decide) hcol hn2
  · cases ds with
    | nil => exact absurd rfl hdne
    | cons c rest =>
      have hcol : (':' : Char) ∉ (c :: rest) ++ e :: (sgn ++ xs) := by
        intro hm
        rcases List.mem_append.mp hm with h | h
        · exact absurd (hd ':' h) (by decide)
        · rcases List.mem_cons.mp h with h | h
          · rw [← h] at hec
            rcases hec with h' | h' <;> exact absurd h' (by decide)
          · rcases List.mem_append.mp h with h | h
            · rcases hsgn with rfl | rfl | rfl
              · exact absurd h (List.not_mem_nil ':')
              · simp only [List.mem_cons, List.not_mem_nil, or_false] at h
                exact absurd h (by decide)
              · simp only [List.mem_cons, List.not_mem_nil, or_false] at h
                exact absurd h (by decide)
            · exact absurd (hxd ':' h) (by decide)
      exact tokenizeLine_number (hd c (List.mem_cons_self _ _)) hcol
        (matchNumber_exp (List.cons_ne_nil c rest) hxne hd hxd hec hsgn)
  · cases fs with
    | nil => exact absurd rfl hfne
    | cons f ft =>
      have hcol : (':' : Char) ∉ f :: ft := by
        intro hm
        exact absurd (hf ':' hm) (by decide)
      have hrules : matchRules (f :: ft) = some ("number", (f :: ft).length) :=
        matchRules_number (hf f (List.mem_cons_self _ _)) hcol
          (matchNumber_int (List.cons_ne_nil f ft) hf)
      rw [tokenizeLine]
      rw [show ('.' :: f :: ft).length = (f :: ft).length + 1 from rfl]
      rw [tokenizeGo_step_none ((f :: ft).length) 0 (matchRules_dot (f :: ft))]
      rw [show (0 : Nat) + 1 = 1 from rfl]
      rw [show (f :: ft).length = ft.length + 1 from rfl]
      rw [tokenizeGo_single ft.length 1 hrules (List.cons_ne_nil f ft)]
  · cases ds with
    | nil => exact absurd rfl hdne
    | cons c rest =>
      have hcol : (':' : Char) ∉ (c :: rest) ++ ['.'] := by
        intro hm
        rcases List.mem_append.mp hm with h | h
        · exact absurd (hd ':' h) (by decide)
        · simp only [List.mem_cons, List.not_mem_nil, or_false] at h
          exact absurd h (by decide)
      have hrules : matchRules (c :: (rest ++ ['.'])) =
          some ("number", (c :: rest).length) := by
        have hn := matchNumber_trailing_dot (List.cons_ne_nil c rest) hd
        rw [List.cons_append] at hn
        exact matchRules_number (hd c (List.mem_cons_self _ _)) hcol hn
      rw [tokenizeLine, List.cons_append]
      rw [show (c :: (rest ++ ['.'])).length = (rest ++ ['.']).length + 1
        from rfl]
      rw [tokenizeGo_step_some ((rest ++ ['.']).length) 0 hrules]
      rw [show (c :: (rest ++ ['.'])).take (c :: rest).length = c :: rest
        from by rw [← List.cons_append, List.take_left]]
      rw [show (c :: (rest ++ ['.'])).drop (c :: rest).length = ['.']
        from by rw [← List.cons_append, List.drop_left]]
      rw [Nat.zero_add]
      rw [show (rest ++ ['.']).length = rest.length + 1 from by
        rw [List.length_append]
        rfl]
      rw [tokenizeGo_step_none rest.length ((c :: rest).length)
        (matchRules_dot [])]
      rw [tokenizeGo_nil]

/-- C8 counterexample: the leading-dot literal `.5` is not a single number
token (the unmatched dot becomes a default `source` token), and the
trailing-dot literal `3.` splits the same way. -/
theorem numeric_literals_cex :
    tokenizeLine (".5".toList) =
      [⟨"source", 0, ['.']⟩, ⟨"number", 1, ['5']⟩] ∧
    ¬ tokenizeLine (".5".toList) = [⟨"number", 0, ".5".toList⟩] ∧
    tokenizeLine ("3.".toList) =
      [⟨"number", 0, ['3']⟩, ⟨"source", 1, ['.']⟩] ∧
    ¬ tokenizeLine ("3.".toList) = [⟨"number", 0, "3.".toList⟩] := by decide

/-- Witness for C8 over representative literals of every form. -/
theorem numeric_literals_witness :
    tokenizeLine ("12".toList) = [⟨"number", 0, "12".toList⟩] ∧
    tokenizeLine ("12.5".toList) = [⟨"number", 0, "12.5".toList⟩] ∧
    tokenizeLine ("0x1A".toList) = [⟨"number", 0, "0x1A".toList⟩] ∧
    tokenizeLine ("0o17".toList) = [⟨"number", 0, "0o17".toList⟩] ∧
    tokenizeLine ("0b10".toList) = [⟨"number", 0, "0b10".toList⟩] ∧
    tokenizeLine ("12e+10".toList) = [⟨"number", 0, "12e+10".toList⟩] ∧
    tokenizeLine (".5".toList) =
      [⟨"source", 0, ['.']⟩, ⟨"number", 1, "5".toList⟩] ∧
    tokenizeLine ("12.".toList) =
      [⟨"number", 0, "12".toList⟩, ⟨"source", 2, ['.']⟩] := by
  have h := numeric_literals ['1', '2'] ['5'] ['1', 'A'] ['1', '7'] ['1', '0']
    ['1', '0'] ['+'] 'x' 'e' (by decide) (by decide) (by decide) (by decide)
    (by decide) (by decide) (by decide) (by decide) (by decide) (by decide)
    (by decide) (by decide) (by decide) (by decide) (by decide)
  exact ⟨h.1, h.2.1, h.2.2.1, h.2.2.2.1, h.2.2.2.2.1, h.2.2.2.2.2.1,
    h.2.2.2.2.2.2.1, h.2.2.2.2.2.2.2⟩

end AntimonyEditor
